import Mathlib

/-!
Verification model of the Choixe configuration-processing engine of
pipelime-python.  The engine's Python sources are not part of this tree
(only its documentation is), so the definitions below are modelled from
the specification and from the repository documentation
(docs/choixe/directives.md, docs/choixe/syntax.md, docs/choixe/xconfig.md),
restricted to the fragment of the language the verified properties are
about: literals, dicts, lists, string bundles, `var`, `import`, `sweep`,
`for`, `call`, `index` and `item` directives.
-/

namespace Choixe

/-- Modelled from the spec: a raw structure value — nested mappings
(string keys, insertion order preserved), sequences and scalars, plus an
opaque marker `vnative` for live python objects produced by `call`/`model`
(which are not raw structures). -/
inductive Value where
  | vnull
  | vbool (b : Bool)
  | vint (n : Int)
  | vstr (s : String)
  | vlist (items : List Value)
  | vdict (entries : List (String × Value))
  | vnative (tag : String)
deriving Repr

/-- Modelled from the spec: the error taxonomy of the engine (§7 of the
spec); `outOfFuel` is an artifact of the fueled embedding and is never
produced when enough fuel is supplied. -/
inductive Err where
  | missingVar (path : String)
  | branchingViolation
  | cyclicImport (path : String)
  | missingFile (path : String)
  | missingLoop
  | typeError
  | nonRawResult
  | unresolvedImport
  | outOfFuel
deriving Repr, DecidableEq

/-- Modelled from the spec: the evaluation context — a read-only nested
mapping plus the OS environment (modelled as an association list). -/
structure Ctx where
  data : Value
  osenv : List (String × String)

/-- The stack of active loop scopes: identifier, current index and
current item (none when iterating over a plain integer range). -/
abbrev Scopes := List (String × Nat × Option Value)

/-- First-match lookup in an association list with string keys. -/
def lookupStr (entries : List (String × α)) (k : String) : Option α :=
  match entries with
  | [] => none
  | (k2, v) :: rest => if k2 = k then some v else lookupStr rest k

def splitDotsAux : List Char → List Char → List String
  | [], cur => [String.mk cur.reverse]
  | c :: rest, cur =>
    if c = '.' then String.mk cur.reverse :: splitDotsAux rest []
    else splitDotsAux rest (c :: cur)

/-- Split a dot-notation path into its segments. -/
def splitDots (s : String) : List String := splitDotsAux s.data []

/-- Modelled from the spec: pydash-style deep lookup along a list of key
segments. -/
def deepGetSegs : Value → List String → Option Value
  | v, [] => some v
  | .vdict es, k :: ks =>
    match lookupStr es k with
    | some v => deepGetSegs v ks
    | none => none
  | _, _ :: _ => none

/-- Modelled from the spec: dot-notation lookup in a nested mapping. -/
def deepGet (v : Value) (path : String) : Option Value :=
  deepGetSegs v (splitDots path)

def upperStr (s : String) : String := String.mk (s.data.map Char.toUpper)

def lastSeg (path : String) : String := (splitDots path).getLastD path

/-- Modelled from the spec: the OS environment variable consulted by
`var(..., env=True)` — the last path segment, uppercased. -/
def envKey (path : String) : String := upperStr (lastSeg path)

def envGet (ctx : Ctx) (k : String) : Option String := lookupStr ctx.osenv k

/-- Modelled from the spec: stringification of a value inside a string
bundle; compound values get a placeholder rendering (not exercised by the
verified properties). -/
def stringify : Value → String
  | .vnull => "null"
  | .vbool true => "true"
  | .vbool false => "false"
  | .vint n => toString n
  | .vstr s => s
  | .vlist _ => "<list>"
  | .vdict _ => "<dict>"
  | .vnative tag => tag

/-- Left fold concatenating the stringifications of a list of values. -/
def concatVals (vs : List Value) : String :=
  vs.foldl (fun acc v => acc ++ stringify v) ""

/-- All combinations of one element per list, ordered with the first
list varying fastest — the branch enumeration order shown by the sweep
examples of docs/choixe/directives.md. -/
def combos : List (List α) → List (List α)
  | [] => [[]]
  | xs :: rest => (combos rest).flatMap (fun c => xs.map (fun x => x :: c))

/-- Effectful map over a list in the `Except` monad, stopping at the
first error (written as an explicit recursion for proof convenience). -/
def exList (f : α → Except Err β) : List α → Except Err (List β)
  | [] => .ok []
  | x :: xs =>
    match f x with
    | .error e => .error e
    | .ok y =>
      match exList f xs with
      | .error e => .error e
      | .ok ys => .ok (y :: ys)

/-- Option-valued map over a list, failing if any element fails. -/
def optList (f : α → Option β) : List α → Option (List β)
  | [] => some []
  | x :: xs =>
    match f x with
    | none => none
    | some y =>
      match optList f xs with
      | none => none
      | some ys => some (y :: ys)

/-- Modelled from the spec: the `var` fallback chain — context lookup,
then (if `env` is set) the OS environment at the uppercased last path
segment, then the declared default; a miss at every stage is a
missing-variable error carrying the dotted path. -/
def varLookup (ctx : Ctx) (path : String) (dflt : Option Value) (env : Bool) :
    Except Err Value :=
  match ((deepGet ctx.data path).orElse (fun _ =>
      if env then (envGet ctx (envKey path)).map Value.vstr else none)).orElse
      (fun _ => dflt) with
  | some v => .ok v
  | none => .error (.missingVar path)

/-- Modelled from the spec: the iterable argument of a `for` directive —
either a literal integer or a context path (pointing to an integer or a
list). -/
inductive LoopIter where
  | num (n : Nat)
  | path (p : String)
deriving Repr

def rangeSteps (n : Nat) : List (Nat × Option Value) :=
  (List.range n).map (fun i => (i, none))

/-- Modelled from the spec: resolve a `for` iterable against the context
into the list of (index, item) iteration steps. -/
def loopSteps (ctx : Ctx) : LoopIter → Except Err (List (Nat × Option Value))
  | .num n => .ok (rangeSteps n)
  | .path p =>
    match deepGet ctx.data p with
    | some (.vint n) => .ok (rangeSteps n.toNat)
    | some (.vlist xs) => .ok (xs.enum.map (fun iv => (iv.1, some iv.2)))
    | some _ => .error .typeError
    | none => .error (.missingVar p)

/-- Find a loop scope by identifier, defaulting to the innermost scope
when no identifier is given. -/
def scopeFind (sc : Scopes) : Option String → Option (Nat × Option Value)
  | none => sc.head?.map (fun e => e.2)
  | some id => (sc.find? (fun e => e.1 == id)).map (fun e => e.2)

def scopeIndex (sc : Scopes) (id : Option String) : Except Err Value :=
  match scopeFind sc id with
  | some st => .ok (.vint st.1)
  | none => .error .missingLoop

def scopeItem (sc : Scopes) (id : Option String) (sub : Option String) :
    Except Err Value :=
  match scopeFind sc id with
  | none => .error .missingLoop
  | some st =>
    match st.2 with
    | none => .error .missingLoop
    | some itemVal =>
      match sub with
      | none => .ok itemVal
      | some p =>
        match deepGet itemVal p with
        | some v => .ok v
        | none => .error (.missingVar p)

/-- Modelled from the spec: the AST of the directive engine, restricted
to the node kinds the verified properties exercise.  Dict keys are
themselves AST nodes (ordinary keys are literal strings); `importNode`
stands for a not-yet-resolved `$import(path)` (imports are spliced at
build time). -/
inductive AST where
  | lit (v : Value)
  | dict (entries : List (AST × AST))
  | list (items : List AST)
  | strBundle (parts : List AST)
  | var (path : String) (dflt : Option Value) (env : Bool)
  | sweep (cases : List AST)
  | forLoop (id : String) (iter : LoopIter) (body : AST)
  | call (symbol : String) (args : AST)
  | importNode (path : String)
  | index (id : Option String)
  | item (id : Option String) (sub : Option String)
deriving Repr

/-- The aggregation discipline of a `for` body, fixed by the body's
outermost syntactic shape (spec §3: "loop aggregation is typed by the
body's outermost shape and is fixed at parse time"). -/
inductive BodyKind where
  | dictK
  | listK
  | strK
  | otherK
deriving Repr, DecidableEq

def bodyKind : AST → BodyKind
  | .dict _ => .dictK
  | .list _ => .listK
  | .lit (.vstr _) => .strK
  | .strBundle _ => .strK
  | _ => .otherK

/-- Modelled from the spec: dictionary union with the right operand
winning on key collision, preserving the left operand's key positions
(python `dict.update` order). -/
def dunion (a b : List (String × Value)) : List (String × Value) :=
  a.map (fun kv => (kv.1, (lookupStr b kv.1).getD kv.2)) ++
    b.filter (fun kv => (lookupStr a kv.1).isNone)

def toDictEntries : Value → Option (List (String × Value))
  | .vdict es => some es
  | _ => none

def toListItems : Value → Option (List Value)
  | .vlist xs => some xs
  | _ => none

def toStrVal : Value → Option String
  | .vstr s => some s
  | _ => none

/-- Modelled from the spec: aggregation of the per-iteration results of a
`for` loop — dict bodies take the key union (later iterations overwrite
earlier ones), list bodies concatenate, string bodies concatenate. -/
def aggregate (k : BodyKind) (rs : List Value) : Except Err Value :=
  match k with
  | .dictK =>
    match optList toDictEntries rs with
    | some ds => .ok (.vdict (ds.foldl dunion []))
    | none => .error .typeError
  | .listK =>
    match optList toListItems rs with
    | some ls => .ok (.vlist ls.flatten)
    | none => .error .typeError
  | .strK =>
    match optList toStrVal rs with
    | some ss => .ok (.vstr (String.join ss))
    | none => .error .typeError
  | .otherK => .error .typeError

/-- Branch-list evaluation of one dict entry: all (key, value) pairs of
the entry, the key varying fastest, keys stringified. -/
def entryFn (pa : AST → Except Err (List Value)) (kv : AST × AST) :
    Except Err (List (String × Value)) :=
  match pa kv.1, pa kv.2 with
  | .ok ks, .ok vs =>
    .ok (vs.flatMap (fun vv => ks.map (fun kk => (stringify kk, vv))))
  | .error e, _ => .error e
  | _, .error e => .error e

/-- Strict evaluation of one dict entry to a single (key, value) pair. -/
def entryFnStrict (pa : AST → Except Err Value) (kv : AST × AST) :
    Except Err (String × Value) :=
  match pa kv.1, pa kv.2 with
  | .ok kk, .ok vv => .ok (stringify kk, vv)
  | .error e, _ => .error e
  | _, .error e => .error e

/-- Sweep-arity collection over one dict entry: key axes then value axes. -/
def entryFnAxes (pa : AST → Except Err (List Nat)) (kv : AST × AST) :
    Except Err (List Nat) :=
  match pa kv.1, pa kv.2 with
  | .ok xs, .ok ys => .ok (xs ++ ys)
  | .error e, _ => .error e
  | _, .error e => .error e

/-- Modelled from the spec: the branching evaluator behind
`process_all` — every node evaluates to the list of its possible values,
one per branch world; `sweep` concatenates the worlds of its branch
values (which makes a sweep nested in a branch local to that branch), and
structural nodes combine the worlds of their children as a cartesian
product whose first child varies fastest, matching the output order of
the sweep examples in docs/choixe/directives.md.  The `fuel` argument
only bounds the recursion depth of the embedding. -/
def processAll (fuel : Nat) (a : AST) (ctx : Ctx) (sc : Scopes) :
    Except Err (List Value) :=
  match fuel with
  | 0 => .error .outOfFuel
  | fuel + 1 =>
    match a with
    | .lit v => .ok [v]
    | .var p d e =>
      match varLookup ctx p d e with
      | .ok v => .ok [v]
      | .error err => .error err
    | .dict entries =>
      match exList (entryFn (fun x => processAll fuel x ctx sc)) entries with
      | .ok bls => .ok ((combos bls).map Value.vdict)
      | .error e => .error e
    | .list items =>
      match exList (fun x => processAll fuel x ctx sc) items with
      | .ok ls => .ok ((combos ls).map Value.vlist)
      | .error e => .error e
    | .strBundle parts =>
      match exList (fun x => processAll fuel x ctx sc) parts with
      | .ok ls => .ok ((combos ls).map (fun vs => Value.vstr (concatVals vs)))
      | .error e => .error e
    | .sweep cases =>
      match exList (fun x => processAll fuel x ctx sc) cases with
      | .ok ls => .ok ls.flatten
      | .error e => .error e
    | .forLoop id iter body =>
      match loopSteps ctx iter with
      | .error e => .error e
      | .ok steps =>
        match exList (fun st => processAll fuel body ctx ((id, st) :: sc)) steps with
        | .error e => .error e
        | .ok ls => exList (fun rs => aggregate (bodyKind body) rs) (combos ls)
    | .call sym args =>
      match processAll fuel args ctx sc with
      | .ok ls => .ok (ls.map (fun _ => Value.vnative sym))
      | .error e => .error e
    | .importNode _ => .error .unresolvedImport
    | .index id =>
      match scopeIndex sc id with
      | .ok v => .ok [v]
      | .error e => .error e
    | .item id sub =>
      match scopeItem sc id sub with
      | .ok v => .ok [v]
      | .error e => .error e

/-- Modelled from the spec: the strict non-branching evaluator behind
`process` — identical to the branching evaluator except that reaching a
`sweep` node fails with `branchingViolation` instead of forking. -/
def process (fuel : Nat) (a : AST) (ctx : Ctx) (sc : Scopes) :
    Except Err Value :=
  match fuel with
  | 0 => .error .outOfFuel
  | fuel + 1 =>
    match a with
    | .lit v => .ok v
    | .var p d e => varLookup ctx p d e
    | .dict entries =>
      match exList (entryFnStrict (fun x => process fuel x ctx sc)) entries with
      | .ok prs => .ok (.vdict prs)
      | .error e => .error e
    | .list items =>
      match exList (fun x => process fuel x ctx sc) items with
      | .ok vs => .ok (.vlist vs)
      | .error e => .error e
    | .strBundle parts =>
      match exList (fun x => process fuel x ctx sc) parts with
      | .ok vs => .ok (.vstr (concatVals vs))
      | .error e => .error e
    | .sweep _ => .error .branchingViolation
    | .forLoop id iter body =>
      match loopSteps ctx iter with
      | .error e => .error e
      | .ok steps =>
        match exList (fun st => process fuel body ctx ((id, st) :: sc)) steps with
        | .error e => .error e
        | .ok rs => aggregate (bodyKind body) rs
    | .call sym args =>
      match process fuel args ctx sc with
      | .ok _ => .ok (.vnative sym)
      | .error e => .error e
    | .importNode _ => .error .unresolvedImport
    | .index id => scopeIndex sc id
    | .item id sub => scopeItem sc id sub

/-- The arities of the sweep nodes reached by a branching evaluation, in
encounter order: a mirror of `processAll` that records `cases.length` at
every sweep instead of forking.  A sweep inside a loop body is recorded
once per iteration; a sweep in dead code is not recorded. -/
def sweepAxes (fuel : Nat) (a : AST) (ctx : Ctx) (sc : Scopes) :
    Except Err (List Nat) :=
  match fuel with
  | 0 => .error .outOfFuel
  | fuel + 1 =>
    match a with
    | .lit _ => .ok []
    | .var p d e =>
      match varLookup ctx p d e with
      | .ok _ => .ok []
      | .error err => .error err
    | .dict entries =>
      match exList (entryFnAxes (fun x => sweepAxes fuel x ctx sc)) entries with
      | .ok ls => .ok ls.flatten
      | .error e => .error e
    | .list items =>
      match exList (fun x => sweepAxes fuel x ctx sc) items with
      | .ok ls => .ok ls.flatten
      | .error e => .error e
    | .strBundle parts =>
      match exList (fun x => sweepAxes fuel x ctx sc) parts with
      | .ok ls => .ok ls.flatten
      | .error e => .error e
    | .sweep cases =>
      match exList (fun x => sweepAxes fuel x ctx sc) cases with
      | .ok _ => .ok [cases.length]
      | .error e => .error e
    | .forLoop id iter body =>
      match loopSteps ctx iter with
      | .error e => .error e
      | .ok steps =>
        match exList (fun st => sweepAxes fuel body ctx ((id, st) :: sc)) steps with
        | .ok ls => .ok ls.flatten
        | .error e => .error e
    | .call _ args => sweepAxes fuel args ctx sc
    | .importNode _ => .error .unresolvedImport
    | .index id =>
      match scopeIndex sc id with
      | .ok _ => .ok []
      | .error e => .error e
    | .item id sub =>
      match scopeItem sc id sub with
      | .ok _ => .ok []
      | .error e => .error e

/-! ### Syntactic predicates on ASTs -/

mutual

/-- Holds when no `sweep` node occurs anywhere in the AST. -/
def sweepFree : AST → Bool
  | .lit _ => true
  | .dict es => sweepFreeEntries es
  | .list xs => sweepFreeList xs
  | .strBundle xs => sweepFreeList xs
  | .var _ _ _ => true
  | .sweep _ => false
  | .forLoop _ _ b => sweepFree b
  | .call _ a => sweepFree a
  | .importNode _ => true
  | .index _ => true
  | .item _ _ => true

def sweepFreeList : List AST → Bool
  | [] => true
  | x :: xs => sweepFree x && sweepFreeList xs

def sweepFreeEntries : List (AST × AST) → Bool
  | [] => true
  | kv :: rest => sweepFree kv.1 && sweepFree kv.2 && sweepFreeEntries rest

end

mutual

/-- Holds when no sweep occurs inside another sweep's branch value:
the branch values of every `sweep` node of the AST are sweep-free. -/
def nonNested : AST → Bool
  | .lit _ => true
  | .dict es => nonNestedEntries es
  | .list xs => nonNestedList xs
  | .strBundle xs => nonNestedList xs
  | .var _ _ _ => true
  | .sweep cases => sweepFreeList cases
  | .forLoop _ _ b => nonNested b
  | .call _ a => nonNested a
  | .importNode _ => true
  | .index _ => true
  | .item _ _ => true

def nonNestedList : List AST → Bool
  | [] => true
  | x :: xs => nonNested x && nonNestedList xs

def nonNestedEntries : List (AST × AST) → Bool
  | [] => true
  | kv :: rest => nonNested kv.1 && nonNested kv.2 && nonNestedEntries rest

end

/-- Whether a node is a directive node (any node kind other than the
structural `lit`, `dict`, `list` and `strBundle` nodes). -/
def isDirectiveB : AST → Bool
  | .lit _ => false
  | .dict _ => false
  | .list _ => false
  | .strBundle _ => false
  | _ => true

mutual

/-- Modelled from the spec: the `processed` flag computed by the
Inspector visitor — `false` at literals, the disjunction of the children
at the structural nodes, `true` at every directive node; per the
repository documentation (docs/choixe/xconfig.md) the flag reports
whether the configuration contains any Choixe directive. -/
def processedOf : AST → Bool
  | .lit _ => false
  | .dict es => processedOfEntries es
  | .list xs => processedOfList xs
  | .strBundle xs => processedOfList xs
  | _ => true

def processedOfList : List AST → Bool
  | [] => false
  | x :: xs => processedOf x || processedOfList xs

def processedOfEntries : List (AST × AST) → Bool
  | [] => false
  | kv :: rest => processedOf kv.1 || processedOf kv.2 || processedOfEntries rest

end

/-- A specification-level characterisation: the AST has a directive node
somewhere (reached through the structural nodes only — a directive's own
nested arguments are below a directive node already). -/
inductive ContainsDirective : AST → Prop where
  | here (a : AST) (h : isDirectiveB a = true) : ContainsDirective a
  | inDictKey (entries : List (AST × AST)) (k v : AST) (hm : (k, v) ∈ entries)
      (h : ContainsDirective k) : ContainsDirective (.dict entries)
  | inDictVal (entries : List (AST × AST)) (k v : AST) (hm : (k, v) ∈ entries)
      (h : ContainsDirective v) : ContainsDirective (.dict entries)
  | inList (items : List AST) (x : AST) (hm : x ∈ items)
      (h : ContainsDirective x) : ContainsDirective (.list items)
  | inBundle (parts : List AST) (x : AST) (hm : x ∈ parts)
      (h : ContainsDirective x) : ContainsDirective (.strBundle parts)

/-- The claim's own reading of the `processed` flag, following the
spec's words: the AST contains at least one non-`Literal` node anywhere
(since `lit` nodes have no AST children, this is simply whether the root
is not a literal). -/
def specContainsNonLiteral : AST → Bool
  | .lit _ => false
  | _ => true

/-! ### The string recogniser (restricted to `$var(path)`/`$import(path)`
call forms, the only string-level directives the verified properties
need). -/

/-- Characters allowed inside the single argument of the restricted
call-form recogniser: identifier characters, dots and path characters. -/
def isArgChar (c : Char) : Bool :=
  c.isAlphanum || c = '_' || c = '.' || c = '/' || c = '-'

/-- Scan the argument characters of a call form up to the closing
parenthesis; returns the argument and the remaining characters. -/
def scanArg : List Char → Option (List Char × List Char)
  | [] => none
  | c :: cs =>
    if c = ')' then some ([], cs)
    else if isArgChar c then
      match scanArg cs with
      | some pr => some (c :: pr.1, pr.2)
      | none => none
    else none

/-- Modelled from the spec: the directive recogniser (§4.1), restricted
to the call forms `var(path)` and `import(path)`; the input is the text
following a `$`. -/
def tryDirective : List Char → Option (AST × List Char)
  | 'v' :: 'a' :: 'r' :: '(' :: rest =>
    match scanArg rest with
    | some pr =>
      if pr.1.isEmpty then none else some (.var (String.mk pr.1) none false, pr.2)
    | none => none
  | 'i' :: 'm' :: 'p' :: 'o' :: 'r' :: 't' :: '(' :: rest =>
    match scanArg rest with
    | some pr =>
      if pr.1.isEmpty then none else some (.importNode (String.mk pr.1), pr.2)
    | none => none
  | _ => none

/-- A fragment of a string bundle: a plain-text run or a directive. -/
inductive Tok where
  | text (s : String)
  | dir (a : AST)
deriving Repr

/-- Modelled from the spec: the string-bundle splitter (§4.3) — walk the
characters, cutting out directive matches and collecting the plain text
runs in between.  The fuel only bounds the recursion depth; one unit per
emitted fragment or skipped character suffices. -/
def tokenizeAux (fuel : Nat) (cs : List Char) (pend : List Char) : List Tok :=
  match fuel with
  | 0 => if pend.isEmpty then [] else [.text (String.mk pend.reverse)]
  | fuel + 1 =>
    match cs with
    | [] => if pend.isEmpty then [] else [.text (String.mk pend.reverse)]
    | c :: rest =>
      if c = '$' then
        match tryDirective rest with
        | some pr =>
          if pend.isEmpty then .dir pr.1 :: tokenizeAux fuel pr.2 []
          else .text (String.mk pend.reverse) :: .dir pr.1 :: tokenizeAux fuel pr.2 []
        | none => tokenizeAux fuel rest ('$' :: pend)
      else tokenizeAux fuel rest (c :: pend)

def tokToAst : Tok → AST
  | .text t => .lit (.vstr t)
  | .dir d => d

/-- Modelled from the spec: scalar-string parsing (§4.4) — no directive
yields a literal, a string that is exactly one directive yields that
directive node itself (preserving its native value type), and a mix of
text and directives yields a string bundle. -/
def parseScalarStr (s : String) : AST :=
  match tokenizeAux (s.data.length + 1) s.data [] with
  | [] => .lit (.vstr s)
  | [.text _] => .lit (.vstr s)
  | [.dir d] => d
  | toks => .strBundle (toks.map tokToAst)

/-! ### Building raw structures into ASTs, with build-time import
resolution and cycle detection. -/

/-- Modelled from the spec: a raw structure as delivered by the
YAML/JSON deserializer — scalars (strings still unparsed), order
preserving mappings and sequences. -/
inductive Raw where
  | str (s : String)
  | val (v : Value)
  | rmap (entries : List (String × Raw))
  | rlist (items : List Raw)
deriving Repr

/-- The filesystem visible to `import` resolution: a mapping from paths
to raw file contents. -/
abbrev FS := List (String × Raw)

/-- The number of importable files not yet on the import stack; the
termination measure of build-time import resolution. -/
def restCount (fs : FS) (stack : List String) : Nat :=
  ((fs.map Prod.fst).filter (fun q => decide (q ∉ stack))).length

theorem length_filter_le_of_imp (l : List α) (p q : α → Bool)
    (h : ∀ x, p x = true → q x = true) :
    (l.filter p).length ≤ (l.filter q).length := by
  induction l with
  | nil => simp
  | cons a l ih =>
    by_cases hp : p a = true
    · simp [List.filter_cons, hp, h a hp]
      omega
    · simp only [List.filter_cons, Bool.not_eq_true] at hp ⊢
      rw [hp]
      by_cases hq : q a = true
      · simp [hq]
        omega
      · simp only [Bool.not_eq_true] at hq
        rw [hq]
        simpa using ih

theorem filter_notin_cons_lt (keys : List String) (stack : List String)
    (p : String) (hp : p ∈ keys) (hnp : p ∉ stack) :
    (keys.filter (fun q => decide (q ∉ p :: stack))).length <
      (keys.filter (fun q => decide (q ∉ stack))).length := by
  induction keys with
  | nil => simp at hp
  | cons a keys ih =>
    rw [List.filter_cons, List.filter_cons]
    by_cases hap : a = p
    · subst hap
      have h1 : (decide (a ∉ a :: stack)) = false := by simp
      have h2 : (decide (a ∉ stack)) = true := by simpa using hnp
      rw [h1, h2]
      have hle := length_filter_le_of_imp keys
        (fun q => decide (q ∉ a :: stack)) (fun q => decide (q ∉ stack))
        (by
          intro x hx
          simp only [List.mem_cons, not_or, decide_eq_true_eq] at hx ⊢
          exact hx.2)
      simp only [Bool.false_eq_true, if_false, if_true, List.length_cons]
      omega
    · have hp2 : p ∈ keys := by
        rcases List.mem_cons.mp hp with h | h
        · exact absurd h.symm hap
        · exact h
      have hlt := ih hp2
      by_cases hs : a ∈ stack
      · have h1 : (decide (a ∉ p :: stack)) = false := by
          simp [List.mem_cons, hs]
        have h2 : (decide (a ∉ stack)) = false := by simpa using hs
        rw [h1, h2]
        simpa using hlt
      · have h1 : (decide (a ∉ p :: stack)) = true := by
          simp [List.mem_cons, hs, hap]
        have h2 : (decide (a ∉ stack)) = true := by simpa using hs
        rw [h1, h2]
        simp only [if_true, List.length_cons]
        omega

theorem restCount_cons_lt (fs : FS) (stack : List String) (p : String)
    (hp : p ∈ fs.map Prod.fst) (hnp : p ∉ stack) :
    restCount fs (p :: stack) < restCount fs stack :=
  filter_notin_cons_lt (fs.map Prod.fst) stack p hp hnp

theorem lookupStr_mem_keys (l : List (String × α)) (k : String) (v : α)
    (h : lookupStr l k = some v) : k ∈ l.map Prod.fst := by
  induction l with
  | nil => simp [lookupStr] at h
  | cons e l ih =>
    simp only [lookupStr] at h
    by_cases he : e.1 = k
    · simp [he]
    · rw [if_neg he] at h
      simp [ih h]

mutual

/-- Modelled from the spec: `build` (§4.4 and §6) — turn a raw structure
into an AST, resolving `import` directives at build time against the
given filesystem while tracking the stack of files being imported; a
file already on the import stack fails with `cyclicImport`.
Ordinary mapping keys become literal string nodes. -/
def buildRaw (fs : FS) (stack : List String) : Raw → Except Err AST
  | .val v => .ok (.lit v)
  | .str s =>
    match parseScalarStr s with
    | .importNode p =>
      if hin : p ∈ stack then .error (.cyclicImport p)
      else
        match hfs : lookupStr fs p with
        | none => .error (.missingFile p)
        | some content => buildRaw fs (p :: stack) content
    | a => .ok a
  | .rmap entries =>
    match buildEntries fs stack entries with
    | .ok es => .ok (.dict es)
    | .error e => .error e
  | .rlist items =>
    match buildList fs stack items with
    | .ok xs => .ok (.list xs)
    | .error e => .error e
termination_by r => (restCount fs stack, sizeOf r)
decreasing_by
  · apply Prod.Lex.left
    exact restCount_cons_lt fs stack p (lookupStr_mem_keys fs p content hfs) hin
  · apply Prod.Lex.right
    simp
    try omega
  · apply Prod.Lex.right
    simp
    try omega

def buildEntries (fs : FS) (stack : List String) :
    List (String × Raw) → Except Err (List (AST × AST))
  | [] => .ok []
  | (k, r) :: rest =>
    match buildRaw fs stack r with
    | .error e => .error e
    | .ok a =>
      match buildEntries fs stack rest with
      | .error e => .error e
      | .ok es => .ok ((.lit (.vstr k), a) :: es)
termination_by l => (restCount fs stack, sizeOf l)
decreasing_by
  · apply Prod.Lex.right
    simp
    try omega
  · apply Prod.Lex.right
    simp
    try omega

def buildList (fs : FS) (stack : List String) : List Raw → Except Err (List AST)
  | [] => .ok []
  | r :: rest =>
    match buildRaw fs stack r with
    | .error e => .error e
    | .ok a =>
      match buildList fs stack rest with
      | .error e => .error e
      | .ok xs => .ok (a :: xs)
termination_by l => (restCount fs stack, sizeOf l)
decreasing_by
  · apply Prod.Lex.right
    simp
    try omega
  · apply Prod.Lex.right
    simp
    try omega

end

/-- Modelled from the spec: build the configuration file at `path`,
resolving its imports (the entry point used for whole files). -/
def buildFile (fs : FS) (path : String) : Except Err AST :=
  match lookupStr fs path with
  | none => .error (.missingFile path)
  | some content => buildRaw fs [path] content

/-! ### The XConfig-level wrappers -/

/-- Modelled from the spec: the inspection report, restricted to the
`processed` field the verified property is about. -/
structure Inspection where
  processed : Bool
deriving Repr

/-- Modelled from the spec: the context-free inspection pass (§4.7),
restricted to the `processed` flag. -/
def inspect (a : AST) : Inspection := ⟨processedOf a⟩

/-- Whether a top-level result conforms to the raw-structure shape
(mapping, sequence or scalar — anything but a live native object). -/
def isRawB : Value → Bool
  | .vnative _ => false
  | _ => true

/-- Modelled from the spec: `unsafe_process` — return the evaluation
result as is, with no validation of its shape. -/
def unsafeProcess (fuel : Nat) (a : AST) (ctx : Ctx) : Except Err Value :=
  process fuel a ctx []

/-- Modelled from the spec: `unsafe_process_all` — the branching variant
of `unsafeProcess`, with no validation of the results. -/
def unsafeProcessAll (fuel : Nat) (a : AST) (ctx : Ctx) : Except Err (List Value) :=
  processAll fuel a ctx []

/-- Modelled from the spec: the safe `process` — as `unsafeProcess`, but
the result must re-conform to the raw-structure shape, otherwise the
call fails. -/
def safeProcess (fuel : Nat) (a : AST) (ctx : Ctx) : Except Err Value :=
  match process fuel a ctx [] with
  | .ok v => if isRawB v then .ok v else .error .nonRawResult
  | .error e => .error e

/-- Modelled from the spec: the safe `process_all` — every returned
branch must re-conform to the raw-structure shape. -/
def safeProcessAll (fuel : Nat) (a : AST) (ctx : Ctx) : Except Err (List Value) :=
  match processAll fuel a ctx [] with
  | .ok vs => if vs.all isRawB then .ok vs else .error .nonRawResult
  | .error e => .error e

/-- An empty context (no data, no environment). -/
def emptyCtx : Ctx := ⟨Value.vdict [], []⟩

/-! ### Basic lemmas about the list combinators -/

theorem exList_nil (f : α → Except Err β) : exList f [] = .ok [] := rfl

theorem exList_cons (f : α → Except Err β) (x : α) (xs : List α) :
    exList f (x :: xs) =
      match f x with
      | .error e => .error e
      | .ok y =>
        match exList f xs with
        | .error e => .error e
        | .ok ys => .ok (y :: ys) := rfl

theorem exList_cons_ok (f : α → Except Err β) (x : α) (xs : List α)
    (ys : List β) (h : exList f (x :: xs) = .ok ys) :
    ∃ y tl, f x = .ok y ∧ exList f xs = .ok tl ∧ ys = y :: tl := by
  rw [exList_cons] at h
  cases hf : f x with
  | error e => rw [hf] at h; exact Except.noConfusion h
  | ok y =>
    rw [hf] at h
    cases ht : exList f xs with
    | error e => rw [ht] at h; exact Except.noConfusion h
    | ok tl =>
      rw [ht] at h
      injection h with h2
      exact ⟨y, tl, rfl, rfl, h2.symm⟩

theorem exList_cons_eq_ok (f : α → Except Err β) (x : α) (xs : List α)
    (y : β) (tl : List β) (hf : f x = .ok y) (ht : exList f xs = .ok tl) :
    exList f (x :: xs) = .ok (y :: tl) := by
  rw [exList_cons, hf, ht]

theorem exList_cons_err_head (f : α → Except Err β) (x : α) (xs : List α)
    (e : Err) (hf : f x = .error e) : exList f (x :: xs) = .error e := by
  rw [exList_cons, hf]

theorem exList_cons_err_tail (f : α → Except Err β) (x : α) (xs : List α)
    (y : β) (e : Err) (hf : f x = .ok y) (ht : exList f xs = .error e) :
    exList f (x :: xs) = .error e := by
  rw [exList_cons, hf, ht]

theorem exList_ok_length (f : α → Except Err β) :
    ∀ (l : List α) (ys : List β), exList f l = .ok ys → ys.length = l.length := by
  intro l
  induction l with
  | nil =>
    intro ys h
    rw [exList_nil] at h
    injection h with h2
    subst h2
    rfl
  | cons x xs ih =>
    intro ys h
    obtain ⟨y, tl, _, ht, rfl⟩ := exList_cons_ok f x xs ys h
    simp [ih tl ht]

theorem exList_congr (f g : α → Except Err β) (l : List α)
    (h : ∀ x ∈ l, f x = g x) : exList f l = exList g l := by
  induction l with
  | nil => rfl
  | cons x xs ih =>
    rw [exList_cons, exList_cons, h x (by simp),
      ih (fun x hx => h x (List.mem_cons_of_mem _ hx))]

theorem optList_nil (f : α → Option β) : optList f [] = some [] := rfl

theorem optList_cons_ok (f : α → Option β) (x : α) (xs : List α)
    (ys : List β) (h : optList f (x :: xs) = some ys) :
    ∃ y tl, f x = some y ∧ optList f xs = some tl ∧ ys = y :: tl := by
  have heq : optList f (x :: xs) =
      (match f x with
      | none => none
      | some y =>
        match optList f xs with
        | none => none
        | some ys => some (y :: ys)) := rfl
  rw [heq] at h
  cases hf : f x with
  | none => rw [hf] at h; exact Option.noConfusion h
  | some y =>
    rw [hf] at h
    cases ht : optList f xs with
    | none => rw [ht] at h; exact Option.noConfusion h
    | some tl =>
      rw [ht] at h
      injection h with h2
      exact ⟨y, tl, rfl, rfl, h2.symm⟩

theorem combos_nil : combos ([] : List (List α)) = [[]] := rfl

theorem combos_cons (xs : List α) (rest : List (List α)) :
    combos (xs :: rest) = (combos rest).flatMap (fun c => xs.map (fun x => x :: c)) := rfl

theorem length_flatMap_consAll (xs : List α) (cs : List (List α)) :
    (cs.flatMap (fun c => xs.map (fun x => x :: c))).length = cs.length * xs.length := by
  induction cs with
  | nil => simp
  | cons c cs ih =>
    simp only [List.flatMap_cons, List.length_append, List.length_map, ih,
      List.length_cons]
    ring

theorem combos_length : ∀ ls : List (List α),
    (combos ls).length = (ls.map List.length).prod := by
  intro ls
  induction ls with
  | nil => simp [combos_nil]
  | cons xs rest ih =>
    rw [combos_cons, length_flatMap_consAll, ih, List.map_cons, List.prod_cons]
    ring

theorem flatten_singletons (vs : List α) : (vs.map (fun v => [v])).flatten = vs := by
  induction vs with
  | nil => rfl
  | cons v vs ih => simp [ih]

theorem flatMap_singleton_map (l : List α) (f : α → β) :
    l.flatMap (fun v => [f v]) = l.map f := by
  induction l with
  | nil => rfl
  | cons x xs ih => simp [ih]

theorem combos_singletons : ∀ ws : List α,
    combos (ws.map (fun w => [w])) = [ws] := by
  intro ws
  induction ws with
  | nil => rfl
  | cons w ws ih =>
    rw [List.map_cons, combos_cons, ih]
    rfl

/-! ### Unfolding equations for the evaluators -/

theorem processAll_lit (fuel : Nat) (v : Value) (ctx : Ctx) (sc : Scopes) :
    processAll (fuel + 1) (.lit v) ctx sc = .ok [v] := rfl

theorem processAll_var (fuel : Nat) (p : String) (d : Option Value) (e : Bool)
    (ctx : Ctx) (sc : Scopes) :
    processAll (fuel + 1) (.var p d e) ctx sc =
      (match varLookup ctx p d e with
      | .ok v => Except.ok [v]
      | .error err => Except.error err) := rfl

theorem processAll_dict (fuel : Nat) (entries : List (AST × AST)) (ctx : Ctx)
    (sc : Scopes) :
    processAll (fuel + 1) (.dict entries) ctx sc =
      (match exList (entryFn (fun x => processAll fuel x ctx sc)) entries with
      | .ok bls => Except.ok ((combos bls).map Value.vdict)
      | .error e => Except.error e) := rfl

theorem processAll_list (fuel : Nat) (items : List AST) (ctx : Ctx) (sc : Scopes) :
    processAll (fuel + 1) (.list items) ctx sc =
      (match exList (fun x => processAll fuel x ctx sc) items with
      | .ok ls => Except.ok ((combos ls).map Value.vlist)
      | .error e => Except.error e) := rfl

theorem processAll_strBundle (fuel : Nat) (parts : List AST) (ctx : Ctx) (sc : Scopes) :
    processAll (fuel + 1) (.strBundle parts) ctx sc =
      (match exList (fun x => processAll fuel x ctx sc) parts with
      | .ok ls => Except.ok ((combos ls).map (fun vs => Value.vstr (concatVals vs)))
      | .error e => Except.error e) := rfl

theorem processAll_sweep (fuel : Nat) (cs : List AST) (ctx : Ctx) (sc : Scopes) :
    processAll (fuel + 1) (.sweep cs) ctx sc =
      (match exList (fun x => processAll fuel x ctx sc) cs with
      | .ok ls => Except.ok ls.flatten
      | .error e => Except.error e) := rfl

theorem processAll_forLoop (fuel : Nat) (id : String) (iter : LoopIter)
    (body : AST) (ctx : Ctx) (sc : Scopes) :
    processAll (fuel + 1) (.forLoop id iter body) ctx sc =
      (match loopSteps ctx iter with
      | .error e => Except.error e
      | .ok steps =>
        match exList (fun st => processAll fuel body ctx ((id, st) :: sc)) steps with
        | .error e => Except.error e
        | .ok ls => exList (fun rs => aggregate (bodyKind body) rs) (combos ls)) := rfl

theorem processAll_call (fuel : Nat) (sym : String) (args : AST) (ctx : Ctx)
    (sc : Scopes) :
    processAll (fuel + 1) (.call sym args) ctx sc =
      (match processAll fuel args ctx sc with
      | .ok ls => Except.ok (ls.map (fun _ => Value.vnative sym))
      | .error e => Except.error e) := rfl

theorem processAll_importNode (fuel : Nat) (p : String) (ctx : Ctx) (sc : Scopes) :
    processAll (fuel + 1) (.importNode p) ctx sc = .error .unresolvedImport := rfl

theorem processAll_index (fuel : Nat) (id : Option String) (ctx : Ctx) (sc : Scopes) :
    processAll (fuel + 1) (.index id) ctx sc =
      (match scopeIndex sc id with
      | .ok v => Except.ok [v]
      | .error e => Except.error e) := rfl

theorem processAll_item (fuel : Nat) (id : Option String) (sub : Option String)
    (ctx : Ctx) (sc : Scopes) :
    processAll (fuel + 1) (.item id sub) ctx sc =
      (match scopeItem sc id sub with
      | .ok v => Except.ok [v]
      | .error e => Except.error e) := rfl

theorem process_lit (fuel : Nat) (v : Value) (ctx : Ctx) (sc : Scopes) :
    process (fuel + 1) (.lit v) ctx sc = .ok v := rfl

theorem process_var (fuel : Nat) (p : String) (d : Option Value) (e : Bool)
    (ctx : Ctx) (sc : Scopes) :
    process (fuel + 1) (.var p d e) ctx sc = varLookup ctx p d e := rfl

theorem process_dict (fuel : Nat) (entries : List (AST × AST)) (ctx : Ctx)
    (sc : Scopes) :
    process (fuel + 1) (.dict entries) ctx sc =
      (match exList (entryFnStrict (fun x => process fuel x ctx sc)) entries with
      | .ok prs => Except.ok (.vdict prs)
      | .error e => Except.error e) := rfl

theorem process_list (fuel : Nat) (items : List AST) (ctx : Ctx) (sc : Scopes) :
    process (fuel + 1) (.list items) ctx sc =
      (match exList (fun x => process fuel x ctx sc) items with
      | .ok vs => Except.ok (.vlist vs)
      | .error e => Except.error e) := rfl

theorem process_strBundle (fuel : Nat) (parts : List AST) (ctx : Ctx) (sc : Scopes) :
    process (fuel + 1) (.strBundle parts) ctx sc =
      (match exList (fun x => process fuel x ctx sc) parts with
      | .ok vs => Except.ok (.vstr (concatVals vs))
      | .error e => Except.error e) := rfl

theorem process_sweep (fuel : Nat) (cs : List AST) (ctx : Ctx) (sc : Scopes) :
    process (fuel + 1) (.sweep cs) ctx sc = .error .branchingViolation := rfl

theorem process_forLoop (fuel : Nat) (id : String) (iter : LoopIter)
    (body : AST) (ctx : Ctx) (sc : Scopes) :
    process (fuel + 1) (.forLoop id iter body) ctx sc =
      (match loopSteps ctx iter with
      | .error e => Except.error e
      | .ok steps =>
        match exList (fun st => process fuel body ctx ((id, st) :: sc)) steps with
        | .error e => Except.error e
        | .ok rs => aggregate (bodyKind body) rs) := rfl

theorem process_call (fuel : Nat) (sym : String) (args : AST) (ctx : Ctx)
    (sc : Scopes) :
    process (fuel + 1) (.call sym args) ctx sc =
      (match process fuel args ctx sc with
      | .ok _ => Except.ok (.vnative sym)
      | .error e => Except.error e) := rfl

theorem process_importNode (fuel : Nat) (p : String) (ctx : Ctx) (sc : Scopes) :
    process (fuel + 1) (.importNode p) ctx sc = .error .unresolvedImport := rfl

theorem process_index (fuel : Nat) (id : Option String) (ctx : Ctx) (sc : Scopes) :
    process (fuel + 1) (.index id) ctx sc = scopeIndex sc id := rfl

theorem process_item (fuel : Nat) (id : Option String) (sub : Option String)
    (ctx : Ctx) (sc : Scopes) :
    process (fuel + 1) (.item id sub) ctx sc = scopeItem sc id sub := rfl

theorem sweepAxes_lit (fuel : Nat) (v : Value) (ctx : Ctx) (sc : Scopes) :
    sweepAxes (fuel + 1) (.lit v) ctx sc = .ok [] := rfl

theorem sweepAxes_var (fuel : Nat) (p : String) (d : Option Value) (e : Bool)
    (ctx : Ctx) (sc : Scopes) :
    sweepAxes (fuel + 1) (.var p d e) ctx sc =
      (match varLookup ctx p d e with
      | .ok _ => Except.ok []
      | .error err => Except.error err) := rfl

theorem sweepAxes_dict (fuel : Nat) (entries : List (AST × AST)) (ctx : Ctx)
    (sc : Scopes) :
    sweepAxes (fuel + 1) (.dict entries) ctx sc =
      (match exList (entryFnAxes (fun x => sweepAxes fuel x ctx sc)) entries with
      | .ok ls => Except.ok ls.flatten
      | .error e => Except.error e) := rfl

theorem sweepAxes_list (fuel : Nat) (items : List AST) (ctx : Ctx) (sc : Scopes) :
    sweepAxes (fuel + 1) (.list items) ctx sc =
      (match exList (fun x => sweepAxes fuel x ctx sc) items with
      | .ok ls => Except.ok ls.flatten
      | .error e => Except.error e) := rfl

theorem sweepAxes_strBundle (fuel : Nat) (parts : List AST) (ctx : Ctx) (sc : Scopes) :
    sweepAxes (fuel + 1) (.strBundle parts) ctx sc =
      (match exList (fun x => sweepAxes fuel x ctx sc) parts with
      | .ok ls => Except.ok ls.flatten
      | .error e => Except.error e) := rfl

theorem sweepAxes_sweep (fuel : Nat) (cs : List AST) (ctx : Ctx) (sc : Scopes) :
    sweepAxes (fuel + 1) (.sweep cs) ctx sc =
      (match exList (fun x => sweepAxes fuel x ctx sc) cs with
      | .ok _ => Except.ok [cs.length]
      | .error e => Except.error e) := rfl

theorem sweepAxes_forLoop (fuel : Nat) (id : String) (iter : LoopIter)
    (body : AST) (ctx : Ctx) (sc : Scopes) :
    sweepAxes (fuel + 1) (.forLoop id iter body) ctx sc =
      (match loopSteps ctx iter with
      | .error e => Except.error e
      | .ok steps =>
        match exList (fun st => sweepAxes fuel body ctx ((id, st) :: sc)) steps with
        | .ok ls => Except.ok ls.flatten
        | .error e => Except.error e) := rfl

theorem sweepAxes_call (fuel : Nat) (sym : String) (args : AST) (ctx : Ctx)
    (sc : Scopes) :
    sweepAxes (fuel + 1) (.call sym args) ctx sc = sweepAxes fuel args ctx sc := rfl

theorem sweepAxes_index (fuel : Nat) (id : Option String) (ctx : Ctx) (sc : Scopes) :
    sweepAxes (fuel + 1) (.index id) ctx sc =
      (match scopeIndex sc id with
      | .ok _ => Except.ok []
      | .error e => Except.error e) := rfl

theorem sweepAxes_item (fuel : Nat) (id : Option String) (sub : Option String)
    (ctx : Ctx) (sc : Scopes) :
    sweepAxes (fuel + 1) (.item id sub) ctx sc =
      (match scopeItem sc id sub with
      | .ok _ => Except.ok []
      | .error e => Except.error e) := rfl

/-! ### Claim theorems -/


/-- Claim C5: the `var` directive resolves the context dot-path first;
on a miss, with `env=True`, the OS environment at the uppercased last
path segment; then the declared default; and with nothing left it fails
with a missing-variable error carrying the dotted path. -/
theorem claim5_var_fallback_order (fuel : Nat) (ctx : Ctx) (p : String)
    (d : Option Value) (e : Bool) (sc : Scopes) :
    process (fuel + 1) (.var p d e) ctx sc =
      (match deepGet ctx.data p with
      | some v => Except.ok v
      | none =>
        match (if e then (envGet ctx (envKey p)).map Value.vstr else none) with
        | some w => Except.ok w
        | none =>
          match d with
          | some dv => Except.ok dv
          | none => Except.error (.missingVar p)) := by
  show varLookup ctx p d e = _
  unfold varLookup
  cases h1 : deepGet ctx.data p with
  | some v => simp [Option.orElse]
  | none =>
    cases h2 : (if e then (envGet ctx (envKey p)).map Value.vstr else none) with
    | some w => simp [Option.orElse, h2]
    | none =>
      cases d with
      | some dv => simp [Option.orElse, h2]
      | none => simp [Option.orElse, h2]

/-- Claim C2: evaluating a `sweep` node concatenates the branch-local
output lists of its branch values, so the total output count is the sum
over the outer branches of each branch's local output count (a sweep
nested inside one branch multiplies only that branch, never a sibling
branch). -/
theorem claim2_nested_sweep_locality (fuel : Nat) (cs : List AST) (ctx : Ctx)
    (sc : Scopes) (ws : List (List Value))
    (h : exList (fun c => processAll fuel c ctx sc) cs = .ok ws) :
    processAll (fuel + 1) (.sweep cs) ctx sc = .ok ws.flatten ∧
      ws.flatten.length = (ws.map List.length).sum := by
  refine ⟨?_, List.length_flatten ws⟩
  rw [processAll_sweep, h]

/-- The nested-sweep example of docs/choixe/directives.md: the outer
sweep has two branches and a second sweep occurs inside the first
branch only. -/
def nestedSweepCases : List AST :=
  [.dict [(.lit (.vstr ("alpha")), .sweep [.lit (.vstr ("foo")), .lit (.vstr ("bar"))]),
    (.lit (.vstr ("beta")), .lit (.vint 10))],
   .dict [(.lit (.vstr ("gamma")), .lit (.vstr ("hello")))]]

theorem claim2_nested_sweep_locality_witness :
    processAll 5 (.sweep nestedSweepCases) emptyCtx [] =
      .ok ([[Value.vdict [("alpha", Value.vstr ("foo")), ("beta", Value.vint 10)],
            Value.vdict [("alpha", Value.vstr ("bar")), ("beta", Value.vint 10)]],
           [Value.vdict [("gamma", Value.vstr ("hello"))]]] : List (List Value)).flatten ∧
      (([[Value.vdict [("alpha", Value.vstr ("foo")), ("beta", Value.vint 10)],
            Value.vdict [("alpha", Value.vstr ("bar")), ("beta", Value.vint 10)]],
           [Value.vdict [("gamma", Value.vstr ("hello"))]]] : List (List Value)).flatten).length =
        (([[Value.vdict [("alpha", Value.vstr ("foo")), ("beta", Value.vint 10)],
            Value.vdict [("alpha", Value.vstr ("bar")), ("beta", Value.vint 10)]],
           [Value.vdict [("gamma", Value.vstr ("hello"))]]] : List (List Value)).map List.length).sum :=
  claim2_nested_sweep_locality 4 nestedSweepCases emptyCtx [] _ (by rfl)

theorem exList_lit_map (fuel : Nat) (vs : List Value) (ctx : Ctx) (sc : Scopes) :
    exList (fun x => processAll (fuel + 1) x ctx sc) (vs.map AST.lit) =
      .ok (vs.map (fun v => [v])) := by
  induction vs with
  | nil => rfl
  | cons v vs ih =>
    rw [List.map_cons, List.map_cons]
    exact exList_cons_eq_ok _ _ _ _ _ (processAll_lit fuel v ctx sc) ih

theorem processAll_sweep_lits (fuel : Nat) (vs : List Value) (ctx : Ctx) (sc : Scopes) :
    processAll (fuel + 2) (.sweep (vs.map AST.lit)) ctx sc = .ok vs := by
  rw [processAll_sweep, exList_lit_map]
  show Except.ok ((vs.map (fun v => [v])).flatten) = Except.ok vs
  rw [flatten_singletons]

theorem entryFn_ok (pa : AST → Except Err (List Value)) (k v : AST)
    (K V : List Value) (hk : pa k = .ok K) (hv : pa v = .ok V) :
    entryFn pa (k, v) =
      .ok (V.flatMap (fun vv => K.map (fun kk => (stringify kk, vv)))) := by
  show (match pa k, pa v with
    | .ok ks, .ok vs =>
      Except.ok (vs.flatMap (fun vv => ks.map (fun kk => (stringify kk, vv))))
    | .error e, _ => Except.error e
    | _, .error e => Except.error e) = _
  rw [hk, hv]

theorem entryFnStrict_ok (pa : AST → Except Err Value) (k v : AST)
    (kk vv : Value) (hk : pa k = .ok kk) (hv : pa v = .ok vv) :
    entryFnStrict pa (k, v) = .ok (stringify kk, vv) := by
  show (match pa k, pa v with
    | .ok kk, .ok vv => Except.ok (stringify kk, vv)
    | .error e, _ => Except.error e
    | _, .error e => Except.error e) = _
  rw [hk, hv]

theorem entryFnAxes_ok (pa : AST → Except Err (List Nat)) (k v : AST)
    (xs ys : List Nat) (hk : pa k = .ok xs) (hv : pa v = .ok ys) :
    entryFnAxes pa (k, v) = .ok (xs ++ ys) := by
  show (match pa k, pa v with
    | .ok xs, .ok ys => Except.ok (xs ++ ys)
    | .error e, _ => Except.error e
    | _, .error e => Except.error e) = _
  rw [hk, hv]

theorem combos_two (L1 L2 : List α) :
    combos [L1, L2] = L2.flatMap (fun y => L1.map (fun x => [x, y])) := by
  rw [combos_cons, combos_cons, combos_nil]
  simp [List.flatMap_map]

/-- The two-sweep example of docs/choixe/directives.md (lines 173-210). -/
def twoSweepDict : AST :=
  .dict [(.lit (.vstr ("alpha")), .sweep [.lit (.vstr ("a")), .lit (.vstr ("b"))]),
    (.lit (.vstr ("beta")), .sweep [.lit (.vint 10), .lit (.vint 20), .lit (.vstr ("hello"))])]

/-- The six outputs in the order documented by directives.md: the first
(leftmost) sweep varies fastest. -/
def docsOrderOut : List Value :=
  [.vdict [("alpha", .vstr ("a")), ("beta", .vint 10)],
   .vdict [("alpha", .vstr ("b")), ("beta", .vint 10)],
   .vdict [("alpha", .vstr ("a")), ("beta", .vint 20)],
   .vdict [("alpha", .vstr ("b")), ("beta", .vint 20)],
   .vdict [("alpha", .vstr ("a")), ("beta", .vstr ("hello"))],
   .vdict [("alpha", .vstr ("b")), ("beta", .vstr ("hello"))]]

/-- The order the claim asserts: the leftmost sweep varying slowest
(standard nested-loop iteration). -/
def claimedSlowOrderOut : List Value :=
  [.vdict [("alpha", .vstr ("a")), ("beta", .vint 10)],
   .vdict [("alpha", .vstr ("a")), ("beta", .vint 20)],
   .vdict [("alpha", .vstr ("a")), ("beta", .vstr ("hello"))],
   .vdict [("alpha", .vstr ("b")), ("beta", .vint 10)],
   .vdict [("alpha", .vstr ("b")), ("beta", .vint 20)],
   .vdict [("alpha", .vstr ("b")), ("beta", .vstr ("hello"))]]

/-- Claim C3, counterexample: on the documented two-sweep configuration
the branching evaluation returns the branches with the leftmost sweep
varying fastest (the order printed in directives.md), which differs from
the claimed leftmost-varies-slowest cartesian order already at the
second element. -/
theorem claim3_counterexample :
    processAll 5 twoSweepDict emptyCtx [] = .ok docsOrderOut ∧
      docsOrderOut ≠ claimedSlowOrderOut := by
  refine ⟨rfl, ?_⟩
  intro h
  simp [docsOrderOut, claimedSlowOrderOut] at h

/-- Claim C3, amended: the list returned for two non-nested sweeps is
the cartesian product in which the leftmost sweep (first in source
order) varies fastest and the rightmost varies slowest, matching the
enumeration order documented in directives.md. -/
theorem claim3_amended_order (fuel : Nat) (k1 k2 : String) (as bs : List Value)
    (ctx : Ctx) (sc : Scopes) :
    processAll (fuel + 3)
      (.dict [(.lit (.vstr k1), .sweep (as.map AST.lit)),
        (.lit (.vstr k2), .sweep (bs.map AST.lit))]) ctx sc =
      .ok (bs.flatMap (fun b => as.map (fun a => Value.vdict [(k1, a), (k2, b)]))) := by
  rw [processAll_dict]
  have h1 : entryFn (fun x => processAll (fuel + 2) x ctx sc)
      (.lit (.vstr k1), .sweep (as.map AST.lit)) = .ok (as.map (fun a => (k1, a))) := by
    rw [entryFn_ok _ _ _ _ _ (processAll_lit (fuel + 1) (.vstr k1) ctx sc)
      (processAll_sweep_lits fuel as ctx sc)]
    show Except.ok (as.flatMap (fun vv => [(stringify (.vstr k1), vv)])) = _
    rw [flatMap_singleton_map]
    rfl
  have h2 : entryFn (fun x => processAll (fuel + 2) x ctx sc)
      (.lit (.vstr k2), .sweep (bs.map AST.lit)) = .ok (bs.map (fun b => (k2, b))) := by
    rw [entryFn_ok _ _ _ _ _ (processAll_lit (fuel + 1) (.vstr k2) ctx sc)
      (processAll_sweep_lits fuel bs ctx sc)]
    show Except.ok (bs.flatMap (fun vv => [(stringify (.vstr k2), vv)])) = _
    rw [flatMap_singleton_map]
    rfl
  rw [exList_cons_eq_ok _ _ _ _ _ h1 (exList_cons_eq_ok _ _ _ _ _ h2 (exList_nil _))]
  show Except.ok ((combos [as.map (fun a => (k1, a)), bs.map (fun b => (k2, b))]).map
    Value.vdict) = _
  rw [combos_two]
  simp only [List.map_flatMap, List.flatMap_map, List.map_map]
  congr 1

/-- The context of the string-bundle example: `x = 5` (an integer),
`y = "cat"` (a string); here generalised over the two values. -/
def ctxXY (n : Int) (s : String) : Ctx :=
  ⟨.vdict [("x", .vint n), ("y", .vstr s)], []⟩

/-- Claim C6: a scalar string mixing literal text with directives
evaluates to the concatenation of the stringified fragment values, while
a scalar string that is exactly one directive evaluates to the
directive's native-typed value (here the integer context value itself,
not its string form). -/
theorem claim6_string_bundle_typing (n : Int) (s : String) :
    process 5 (parseScalarStr ("$var(x) is a $var(y)")) (ctxXY n s) [] =
        .ok (.vstr (toString n ++ " is a " ++ s)) ∧
      process 5 (parseScalarStr ("$var(x)")) (ctxXY n s) [] = .ok (.vint n) := by
  constructor
  · have hp : parseScalarStr ("$var(x) is a $var(y)") =
        .strBundle [.var ("x") none false, .lit (.vstr (" is a ")),
          .var ("y") none false] := rfl
    rw [hp, process_strBundle]
    have hx : process 4 (.var ("x") none false) (ctxXY n s) [] = .ok (.vint n) := rfl
    have hy : process 4 (.var ("y") none false) (ctxXY n s) [] = .ok (.vstr s) := rfl
    rw [exList_cons_eq_ok (fun x => process 4 x (ctxXY n s) []) _ _ _ _ hx
      (exList_cons_eq_ok (fun x => process 4 x (ctxXY n s) []) _ _ _ _
        (process_lit 3 (.vstr (" is a ")) (ctxXY n s) [])
        (exList_cons_eq_ok (fun x => process 4 x (ctxXY n s) []) _ _ _ _ hy
          (exList_nil _)))]
    rfl
  · have hp : parseScalarStr ("$var(x)") = .var ("x") none false := rfl
    rw [hp]
    rfl

/-- Claim C10: when the evaluation result is a native object rather than
a raw structure, the safe `process`/`process_all` fail with a
non-raw-result error, while the unsafe variant returns the object
unchanged and unvalidated. -/
theorem claim10_unsafe_native_result (fuel : Nat) (a : AST) (ctx : Ctx)
    (v : Value) (vs : List Value) (h1 : unsafeProcess fuel a ctx = .ok v)
    (h2 : isRawB v = false) (h3 : unsafeProcessAll fuel a ctx = .ok vs)
    (h4 : v ∈ vs) :
    safeProcess fuel a ctx = .error .nonRawResult ∧
      safeProcessAll fuel a ctx = .error .nonRawResult ∧
      unsafeProcess fuel a ctx = .ok v := by
  refine ⟨?_, ?_, h1⟩
  · unfold unsafeProcess at h1
    unfold safeProcess
    rw [h1]
    show (if isRawB v = true then Except.ok v else Except.error Err.nonRawResult) = _
    rw [h2]
    rfl
  · unfold unsafeProcessAll at h3
    unfold safeProcessAll
    rw [h3]
    have hall : vs.all isRawB = false := by
      rw [List.all_eq_false]
      exact ⟨v, h4, by rw [h2]; simp⟩
    show (if vs.all isRawB = true then Except.ok vs else Except.error Err.nonRawResult) = _
    rw [hall]
    rfl

/-- The root-level `$call` example of docs/choixe/xconfig.md: a config
whose processed result is a numpy array (a native object). -/
def nativeCallAst : AST :=
  .call ("numpy.array") (.dict [(.lit (.vstr ("object")),
    .list [.lit (.vint 1), .lit (.vint 2), .lit (.vint 3)])])

theorem claim10_unsafe_native_result_witness :
    safeProcess 6 nativeCallAst emptyCtx = .error .nonRawResult ∧
      safeProcessAll 6 nativeCallAst emptyCtx = .error .nonRawResult ∧
      unsafeProcess 6 nativeCallAst emptyCtx = .ok (.vnative ("numpy.array")) :=
  claim10_unsafe_native_result 6 nativeCallAst emptyCtx (.vnative ("numpy.array"))
    [.vnative ("numpy.array")] rfl rfl rfl (by simp)

/-! ### Lemmas about dictionary union (for-loop aggregation) -/

/-- Last-write-wins lookup across a list of dicts: the value of the
last dict binding the key, if any. -/
def lastWins (ds : List (List (String × Value))) (k : String) : Option Value :=
  ds.foldl (fun o d => (lookupStr d k).orElse (fun _ => o)) none

theorem lookupStr_nil (k : String) : lookupStr ([] : List (String × α)) k = none := rfl

theorem lookupStr_cons (e : String × α) (rest : List (String × α)) (k : String) :
    lookupStr (e :: rest) k = if e.1 = k then some e.2 else lookupStr rest k := rfl

theorem lookupStr_append (a b : List (String × α)) (k : String) :
    lookupStr (a ++ b) k = (lookupStr a k).orElse (fun _ => lookupStr b k) := by
  induction a with
  | nil => simp [lookupStr_nil, Option.orElse]
  | cons e a ih =>
    rw [List.cons_append, lookupStr_cons, lookupStr_cons]
    by_cases he : e.1 = k
    · simp [he, Option.orElse]
    · simp [he, ih]

theorem lookupStr_map_getD (a b : List (String × Value)) (k : String) :
    lookupStr (a.map (fun kv => (kv.1, (lookupStr b kv.1).getD kv.2))) k =
      (lookupStr a k).map (fun v => (lookupStr b k).getD v) := by
  induction a with
  | nil => rfl
  | cons e a ih =>
    rw [List.map_cons, lookupStr_cons, lookupStr_cons]
    by_cases he : e.1 = k
    · simp [he]
    · simp [he, ih]

theorem lookupStr_filter_none (a b : List (String × Value)) (k : String)
    (h : lookupStr a k = none) :
    lookupStr (b.filter (fun kv => (lookupStr a kv.1).isNone)) k = lookupStr b k := by
  induction b with
  | nil => rfl
  | cons e b ih =>
    rw [List.filter_cons]
    by_cases he : e.1 = k
    · have hkeep : ((lookupStr a e.1).isNone) = true := by
        rw [he, h]
        rfl
      rw [hkeep]
      simp only [if_true]
      rw [lookupStr_cons, lookupStr_cons, if_pos he, if_pos he]
    · cases hkeep : ((lookupStr a e.1).isNone) with
      | true =>
        simp only [if_true]
        rw [lookupStr_cons, lookupStr_cons, if_neg he, if_neg he, ih]
      | false =>
        simp only [Bool.false_eq_true, if_false]
        rw [ih, lookupStr_cons, if_neg he]

theorem dunion_lookup (a b : List (String × Value)) (k : String) :
    lookupStr (dunion a b) k = (lookupStr b k).orElse (fun _ => lookupStr a k) := by
  unfold dunion
  rw [lookupStr_append, lookupStr_map_getD]
  cases ha : lookupStr a k with
  | none =>
    rw [lookupStr_filter_none a b k ha]
    cases hb : lookupStr b k <;> simp [Option.orElse]
  | some v =>
    cases hb : lookupStr b k <;> simp [Option.orElse, hb]

theorem foldl_dunion_lookup (ds : List (List (String × Value))) (k : String) :
    ∀ acc, lookupStr (ds.foldl dunion acc) k =
      ds.foldl (fun o d => (lookupStr d k).orElse (fun _ => o)) (lookupStr acc k) := by
  induction ds with
  | nil => intro acc; rfl
  | cons d ds ih =>
    intro acc
    rw [List.foldl_cons, List.foldl_cons, ih, dunion_lookup]

theorem foldl_dunion_lastWins (ds : List (List (String × Value))) (k : String) :
    lookupStr (ds.foldl dunion []) k = lastWins ds k := by
  have h := foldl_dunion_lookup ds k []
  rw [lookupStr_nil] at h
  exact h

/-- Claim C7: the result of a `for` loop is aggregated according to the
body's type — a dict body yields the fold of the per-iteration dicts
under right-biased dictionary union (so looking up any key yields its
binding in the last iteration that wrote it: last-write-wins key union),
a list body yields the concatenation of the per-iteration lists, and a
string body yields the concatenation of the per-iteration strings. -/
theorem claim7_for_aggregation (fuel : Nat) (id : String) (iter : LoopIter)
    (body : AST) (ctx : Ctx) (sc : Scopes) (steps : List (Nat × Option Value))
    (rs : List Value)
    (hsteps : loopSteps ctx iter = .ok steps)
    (hiters : exList (fun st => process fuel body ctx ((id, st) :: sc)) steps = .ok rs) :
    (bodyKind body = .dictK → ∀ ds, optList toDictEntries rs = some ds →
        process (fuel + 1) (.forLoop id iter body) ctx sc =
          .ok (.vdict (ds.foldl dunion [])) ∧
        ∀ k, lookupStr (ds.foldl dunion []) k = lastWins ds k) ∧
      (bodyKind body = .listK → ∀ ls, optList toListItems rs = some ls →
        process (fuel + 1) (.forLoop id iter body) ctx sc = .ok (.vlist ls.flatten)) ∧
      (bodyKind body = .strK → ∀ ss, optList toStrVal rs = some ss →
        process (fuel + 1) (.forLoop id iter body) ctx sc =
          .ok (.vstr (String.join ss))) := by
  have hbase : process (fuel + 1) (.forLoop id iter body) ctx sc =
      aggregate (bodyKind body) rs := by
    rw [process_forLoop, hsteps]
    show (match exList (fun st => process fuel body ctx ((id, st) :: sc)) steps with
      | .error e => Except.error e
      | .ok rs => aggregate (bodyKind body) rs) = _
    rw [hiters]
  refine ⟨?_, ?_, ?_⟩
  · intro hk ds hds
    refine ⟨?_, fun k => foldl_dunion_lastWins ds k⟩
    rw [hbase, hk]
    show (match optList toDictEntries rs with
      | some ds => Except.ok (Value.vdict (ds.foldl dunion []))
      | none => Except.error Err.typeError) = _
    rw [hds]
  · intro hk ls hls
    rw [hbase, hk]
    show (match optList toListItems rs with
      | some ls => Except.ok (Value.vlist ls.flatten)
      | none => Except.error Err.typeError) = _
    rw [hls]
  · intro hk ss hss
    rw [hbase, hk]
    show (match optList toStrVal rs with
      | some ss => Except.ok (Value.vstr (String.join ss))
      | none => Except.error Err.typeError) = _
    rw [hss]

/-- A loop body producing, on each iteration, a one-entry dict whose key
depends on the loop index (the `cat_$index` pattern of the directives
documentation). -/
def catBody : AST :=
  .dict [(.strBundle [.lit (.vstr ("cat_")), .index none], .lit (.vstr ("meow")))]

theorem claim7_for_aggregation_witness :
    process 6 (.forLoop ("i") (.num 3) catBody) emptyCtx [] =
      .ok (.vdict [("cat_0", .vstr ("meow")), ("cat_1", .vstr ("meow")),
        ("cat_2", .vstr ("meow"))]) :=
  ((claim7_for_aggregation 5 ("i") (.num 3) catBody emptyCtx [] (rangeSteps 3)
    [.vdict [("cat_0", .vstr ("meow"))], .vdict [("cat_1", .vstr ("meow"))],
      .vdict [("cat_2", .vstr ("meow"))]] rfl rfl).1 rfl
    [[("cat_0", .vstr ("meow"))], [("cat_1", .vstr ("meow"))],
      [("cat_2", .vstr ("meow"))]] rfl).1

/-! ### Lemmas about the string recogniser, and cyclic-import rejection -/

theorem scanArg_cons (c : Char) (cs : List Char) :
    scanArg (c :: cs) =
      if c = ')' then some ([], cs)
      else if isArgChar c then
        (match scanArg cs with
        | some pr => some (c :: pr.1, pr.2)
        | none => none)
      else none := rfl

theorem isArgChar_ne_rparen (c : Char) (h : isArgChar c = true) : ¬(c = ')') := by
  intro hc
  subst hc
  exact absurd h (by decide)

theorem scanArg_all (p : List Char) (rest : List Char)
    (hall : p.all isArgChar = true) : scanArg (p ++ ')' :: rest) = some (p, rest) := by
  induction p with
  | nil => rfl
  | cons c p ih =>
    rw [List.all_cons, Bool.and_eq_true] at hall
    rw [List.cons_append, scanArg_cons, if_neg (isArgChar_ne_rparen c hall.1),
      if_pos hall.1, ih hall.2]

theorem tryDirective_var (p : List Char) (hne : p ≠ [])
    (hall : p.all isArgChar = true) :
    tryDirective ('v' :: 'a' :: 'r' :: '(' :: (p ++ [')'])) =
      some (.var (String.mk p) none false, []) := by
  show (match scanArg (p ++ [')']) with
    | some pr =>
      if pr.1.isEmpty then none else some (AST.var (String.mk pr.1) none false, pr.2)
    | none => none) = _
  rw [scanArg_all p [] hall]
  have hemp : p.isEmpty = false := by
    cases p with
    | nil => exact absurd rfl hne
    | cons c cs => rfl
  show (if p.isEmpty then none else some (AST.var (String.mk p) none false, [])) = _
  rw [hemp]
  rfl

theorem tryDirective_import (p : List Char) (hne : p ≠ [])
    (hall : p.all isArgChar = true) :
    tryDirective ('i' :: 'm' :: 'p' :: 'o' :: 'r' :: 't' :: '(' :: (p ++ [')'])) =
      some (.importNode (String.mk p), []) := by
  show (match scanArg (p ++ [')']) with
    | some pr =>
      if pr.1.isEmpty then none else some (AST.importNode (String.mk pr.1), pr.2)
    | none => none) = _
  rw [scanArg_all p [] hall]
  have hemp : p.isEmpty = false := by
    cases p with
    | nil => exact absurd rfl hne
    | cons c cs => rfl
  show (if p.isEmpty then none else some (AST.importNode (String.mk p), [])) = _
  rw [hemp]
  rfl

theorem tokenizeAux_succ_cons (fuel : Nat) (c : Char) (rest : List Char)
    (pend : List Char) :
    tokenizeAux (fuel + 1) (c :: rest) pend =
      (if c = '$' then
        (match tryDirective rest with
        | some pr =>
          if pend.isEmpty then .dir pr.1 :: tokenizeAux fuel pr.2 []
          else .text (String.mk pend.reverse) :: .dir pr.1 :: tokenizeAux fuel pr.2 []
        | none => tokenizeAux fuel rest ('$' :: pend))
      else tokenizeAux fuel rest (c :: pend)) := rfl

theorem tokenize_import_only (fuel : Nat) (p : List Char) (hne : p ≠ [])
    (hall : p.all isArgChar = true) :
    tokenizeAux (fuel + 2)
        ('$' :: 'i' :: 'm' :: 'p' :: 'o' :: 'r' :: 't' :: '(' :: (p ++ [')'])) [] =
      [.dir (.importNode (String.mk p))] := by
  rw [tokenizeAux_succ_cons, tryDirective_import p hne hall]
  rfl

theorem parseScalarStr_import (p : String) (hne : p.data ≠ [])
    (hall : p.data.all isArgChar = true) :
    parseScalarStr ("$import(" ++ p ++ ")") = .importNode p := by
  unfold parseScalarStr
  have hdata : ("$import(" ++ p ++ ")").data =
      '$' :: 'i' :: 'm' :: 'p' :: 'o' :: 'r' :: 't' :: '(' :: (p.data ++ [')']) := by
    rw [String.data_append, String.data_append, List.append_assoc]
    rfl
  rw [hdata]
  have hlen : ('$' :: 'i' :: 'm' :: 'p' :: 'o' :: 'r' :: 't' :: '(' ::
      (p.data ++ [')'])).length + 1 = (p.data.length + 8) + 2 := by
    simp
  rw [hlen, tokenize_import_only (p.data.length + 8) p.data hne hall]

/-- Claim C8: two configuration files that import each other are
rejected at build time with a cyclic-import error (the model's builder is
a total function — it terminates on every input by well-founded recursion
on the number of files not yet on the import stack — so the cycle can
never cause divergence). -/
theorem claim8_cyclic_import (a b : String) (hab : a ≠ b)
    (hb1 : b.data ≠ []) (hb2 : b.data.all isArgChar = true)
    (ha1 : a.data ≠ []) (ha2 : a.data.all isArgChar = true) :
    buildFile [(a, .str ("$import(" ++ b ++ ")")), (b, .str ("$import(" ++ a ++ ")"))] a
      = .error (.cyclicImport a) := by
  unfold buildFile
  have hla : lookupStr [(a, Raw.str ("$import(" ++ b ++ ")")),
      (b, Raw.str ("$import(" ++ a ++ ")"))] a = some (Raw.str ("$import(" ++ b ++ ")")) := by
    rw [lookupStr_cons]
    simp
  rw [hla]
  show buildRaw [(a, Raw.str ("$import(" ++ b ++ ")")), (b, Raw.str ("$import(" ++ a ++ ")"))]
    [a] (Raw.str ("$import(" ++ b ++ ")")) = Except.error (Err.cyclicImport a)
  rw [buildRaw.eq_def]
  simp only [parseScalarStr_import b hb1 hb2, parseScalarStr_import a ha1 ha2]
  have hbn : ¬ (b ∈ [a]) := by
    simp only [List.mem_singleton]
    exact fun h => hab h.symm
  rw [dif_neg hbn]
  have hlb : lookupStr [(a, Raw.str ("$import(" ++ b ++ ")")),
      (b, Raw.str ("$import(" ++ a ++ ")"))] b = some (Raw.str ("$import(" ++ a ++ ")")) := by
    rw [lookupStr_cons, if_neg hab, lookupStr_cons, if_pos rfl]
  split
  · next heq =>
    rw [hlb] at heq
    exact Option.noConfusion heq
  · next content heq =>
    rw [hlb] at heq
    injection heq with heq2
    subst heq2
    rw [buildRaw.eq_def]
    simp only [parseScalarStr_import a ha1 ha2]
    have han : a ∈ [b, a] := by simp
    rw [dif_pos han]

theorem claim8_cyclic_import_witness :
    buildFile [("a.yml", .str ("$import(" ++ "b.yml" ++ ")")),
      ("b.yml", .str ("$import(" ++ "a.yml" ++ ")"))] ("a.yml") =
      .error (.cyclicImport ("a.yml")) :=
  claim8_cyclic_import ("a.yml") ("b.yml") (by decide) (by decide) (by decide)
    (by decide) (by decide)

/-! ### The `processed` inspection flag -/

theorem processedOf_dict (es : List (AST × AST)) :
    processedOf (.dict es) = processedOfEntries es := by
  rw [processedOf]

theorem processedOf_list (xs : List AST) :
    processedOf (.list xs) = processedOfList xs := by
  rw [processedOf]

theorem processedOf_strBundle (xs : List AST) :
    processedOf (.strBundle xs) = processedOfList xs := by
  rw [processedOf]

theorem containsDirective_not_lit (v : Value) : ¬ ContainsDirective (.lit v) := by
  intro h
  cases h with
  | here _ hd => exact Bool.noConfusion hd

theorem processedOf_iff_aux : ∀ n (a : AST), sizeOf a ≤ n →
    (processedOf a = true ↔ ContainsDirective a) := by
  intro n
  induction n with
  | zero =>
    intro a ha
    cases a <;> simp at ha
  | succ n ih =>
    intro a ha
    cases a with
    | lit v =>
      rw [processedOf]
      simp only [Bool.false_eq_true, false_iff]
      exact containsDirective_not_lit v
    | dict entries =>
      rw [processedOf_dict]
      have hsz : sizeOf entries ≤ n := by
        simp at ha
        omega
      clear ha
      induction entries with
      | nil =>
        rw [processedOfEntries]
        simp only [Bool.false_eq_true, false_iff]
        intro h
        cases h with
        | here _ hd => exact Bool.noConfusion hd
        | inDictKey _ k v hm _ => simp at hm
        | inDictVal _ k v hm _ => simp at hm
      | cons kv rest ihe =>
        have hszk : sizeOf kv.1 ≤ n := by
          cases kv
          simp at hsz ⊢
          omega
        have hszv : sizeOf kv.2 ≤ n := by
          cases kv
          simp at hsz ⊢
          omega
        have hszr : sizeOf rest ≤ n := by
          simp at hsz
          omega
        rw [processedOfEntries]
        constructor
        · intro h
          rcases Bool.or_eq_true_iff.mp h with h1 | h2
          · rcases Bool.or_eq_true_iff.mp h1 with hk | hv
            · exact ContainsDirective.inDictKey _ kv.1 kv.2 (by simp)
                ((ih kv.1 hszk).mp hk)
            · exact ContainsDirective.inDictVal _ kv.1 kv.2 (by simp)
                ((ih kv.2 hszv).mp hv)
          · have hrest := (ihe hszr).mp h2
            cases hrest with
            | here _ hd => exact Bool.noConfusion hd
            | inDictKey _ k v hm hc =>
              exact ContainsDirective.inDictKey _ k v (List.mem_cons_of_mem _ hm) hc
            | inDictVal _ k v hm hc =>
              exact ContainsDirective.inDictVal _ k v (List.mem_cons_of_mem _ hm) hc
        · intro h
          cases h with
          | here _ hd => exact Bool.noConfusion hd
          | inDictKey _ k v hm hc =>
            rcases List.mem_cons.mp hm with hm1 | hm2
            · have hk : processedOf kv.1 = true := by
                have hkk : k = kv.1 := by rw [← hm1]
                exact (ih kv.1 hszk).mpr (hkk ▸ hc)
              rw [hk]
              simp
            · have : processedOfEntries rest = true :=
                (ihe hszr).mpr (ContainsDirective.inDictKey _ k v hm2 hc)
              rw [this]
              simp
          | inDictVal _ k v hm hc =>
            rcases List.mem_cons.mp hm with hm1 | hm2
            · have hv : processedOf kv.2 = true := by
                have hvv : v = kv.2 := by rw [← hm1]
                exact (ih kv.2 hszv).mpr (hvv ▸ hc)
              rw [hv]
              simp
            · have : processedOfEntries rest = true :=
                (ihe hszr).mpr (ContainsDirective.inDictVal _ k v hm2 hc)
              rw [this]
              simp
    | list items =>
      rw [processedOf_list]
      have hsz : sizeOf items ≤ n := by
        simp at ha
        omega
      clear ha
      induction items with
      | nil =>
        rw [processedOfList]
        simp only [Bool.false_eq_true, false_iff]
        intro h
        cases h with
        | here _ hd => exact Bool.noConfusion hd
        | inList _ x hm _ => simp at hm
      | cons x rest ihe =>
        have hszx : sizeOf x ≤ n := by
          simp at hsz
          omega
        have hszr : sizeOf rest ≤ n := by
          simp at hsz
          omega
        rw [processedOfList]
        constructor
        · intro h
          rcases Bool.or_eq_true_iff.mp h with h1 | h2
          · exact ContainsDirective.inList _ x (by simp) ((ih x hszx).mp h1)
          · have hrest := (ihe hszr).mp h2
            cases hrest with
            | here _ hd => exact Bool.noConfusion hd
            | inList _ y hm hc =>
              exact ContainsDirective.inList _ y (List.mem_cons_of_mem _ hm) hc
        · intro h
          cases h with
          | here _ hd => exact Bool.noConfusion hd
          | inList _ y hm hc =>
            rcases List.mem_cons.mp hm with hm1 | hm2
            · have hx : processedOf x = true := (ih x hszx).mpr (hm1 ▸ hc)
              rw [hx]
              simp
            · have : processedOfList rest = true :=
                (ihe hszr).mpr (ContainsDirective.inList _ y hm2 hc)
              rw [this]
              simp
    | strBundle parts =>
      rw [processedOf_strBundle]
      have hsz : sizeOf parts ≤ n := by
        simp at ha
        omega
      clear ha
      induction parts with
      | nil =>
        rw [processedOfList]
        simp only [Bool.false_eq_true, false_iff]
        intro h
        cases h with
        | here _ hd => exact Bool.noConfusion hd
        | inBundle _ x hm _ => simp at hm
      | cons x rest ihe =>
        have hszx : sizeOf x ≤ n := by
          simp at hsz
          omega
        have hszr : sizeOf rest ≤ n := by
          simp at hsz
          omega
        rw [processedOfList]
        constructor
        · intro h
          rcases Bool.or_eq_true_iff.mp h with h1 | h2
          · exact ContainsDirective.inBundle _ x (by simp) ((ih x hszx).mp h1)
          · have hrest := (ihe hszr).mp h2
            cases hrest with
            | here _ hd => exact Bool.noConfusion hd
            | inBundle _ y hm hc =>
              exact ContainsDirective.inBundle _ y (List.mem_cons_of_mem _ hm) hc
        · intro h
          cases h with
          | here _ hd => exact Bool.noConfusion hd
          | inBundle _ y hm hc =>
            rcases List.mem_cons.mp hm with hm1 | hm2
            · have hx : processedOf x = true := (ih x hszx).mpr (hm1 ▸ hc)
              rw [hx]
              simp
            · have : processedOfList rest = true :=
                (ihe hszr).mpr (ContainsDirective.inBundle _ y hm2 hc)
              rw [this]
              simp
    | var p d e => simp [processedOf, ContainsDirective.here _ (by rfl : isDirectiveB (.var p d e) = true)]
    | sweep cs => simp [processedOf, ContainsDirective.here _ (by rfl : isDirectiveB (.sweep cs) = true)]
    | forLoop id iter body =>
      simp [processedOf, ContainsDirective.here _ (by rfl : isDirectiveB (.forLoop id iter body) = true)]
    | call sym args =>
      simp [processedOf, ContainsDirective.here _ (by rfl : isDirectiveB (.call sym args) = true)]
    | importNode p =>
      simp [processedOf, ContainsDirective.here _ (by rfl : isDirectiveB (.importNode p) = true)]
    | index id => simp [processedOf, ContainsDirective.here _ (by rfl : isDirectiveB (.index id) = true)]
    | item id sub =>
      simp [processedOf, ContainsDirective.here _ (by rfl : isDirectiveB (.item id sub) = true)]

theorem processedOf_iff (a : AST) : processedOf a = true ↔ ContainsDirective a :=
  processedOf_iff_aux (sizeOf a) a (Nat.le_refl _)

/-- Claim C9, counterexample: the plain directive-free mapping
`{"a": 1}` builds to a `Dict` node — a non-`Literal` node — yet its
inspection reports `processed = false`, refuting "processed is true iff
the AST contains at least one non-Literal node anywhere". -/
theorem claim9_counterexample :
    buildRaw [] [] (.rmap [("a", .val (.vint 1))]) =
        .ok (.dict [(.lit (.vstr ("a")), .lit (.vint 1))]) ∧
      specContainsNonLiteral (.dict [(.lit (.vstr ("a")), .lit (.vint 1))]) = true ∧
      (inspect (.dict [(.lit (.vstr ("a")), .lit (.vint 1))])).processed = false := by
  refine ⟨?_, rfl, ?_⟩
  · simp [buildRaw.eq_def, buildEntries.eq_def]
  · show processedOf (.dict [(.lit (.vstr ("a")), .lit (.vint 1))]) = false
    rw [processedOf_dict, processedOfEntries, processedOf, processedOf,
      processedOfEntries]
    rfl

/-- Claim C9, amended: the `processed` field of `inspect (build x)` is
true iff the AST of `x` contains at least one directive node (a node
other than the structural `Literal`, `Dict`, `List` and string-bundle
nodes) — not merely any non-`Literal` node, since directive-free
mappings and sequences build to `Dict`/`List` nodes with
`processed = false`. -/
theorem claim9_processed_iff_directive (x : Raw) (ast : AST)
    (hbuild : buildRaw [] [] x = .ok ast) :
    ((inspect ast).processed = true ↔ ContainsDirective ast) :=
  processedOf_iff ast

theorem claim9_processed_iff_directive_witness :
    ((inspect (.dict [(.lit (.vstr ("a")), .var ("x") none false)])).processed = true ↔
      ContainsDirective (.dict [(.lit (.vstr ("a")), .var ("x") none false)])) :=
  claim9_processed_iff_directive (.rmap [("a", .str ("$var(x)"))])
    (.dict [(.lit (.vstr ("a")), .var ("x") none false)])
    (by
      have hp : parseScalarStr ("$var(x)") = AST.var ("x") none false := rfl
      simp [buildRaw.eq_def, buildEntries.eq_def, hp])

/-! ### Generic helpers for the strict/branching correspondence -/

theorem flatten_nil_all (l : List α) :
    (l.map (fun _ => ([] : List γ))).flatten = [] := by
  induction l with
  | nil => rfl
  | cons x xs ih => simp [ih]

theorem flatten_length_ones (ls : List (List α)) (h : ∀ l ∈ ls, l.length = 1) :
    ls.flatten.length = ls.length := by
  induction ls with
  | nil => rfl
  | cons l ls ih =>
    rw [List.flatten_cons, List.length_append, h l (by simp),
      ih (fun x hx => h x (List.mem_cons_of_mem _ hx)), List.length_cons]
    omega

theorem flatMap_map_length (V : List β) (K : List γ) (g : γ → β → δ) :
    (V.flatMap (fun vv => K.map (fun kk => g kk vv))).length =
      K.length * V.length := by
  induction V with
  | nil => simp
  | cons v V ih =>
    simp only [List.flatMap_cons, List.length_append, List.length_map, ih,
      List.length_cons]
    ring

theorem entryFn_ok_inv (pa : AST → Except Err (List Value)) (kv : AST × AST)
    (bl : List (String × Value)) (h : entryFn pa kv = .ok bl) :
    ∃ K V, pa kv.1 = .ok K ∧ pa kv.2 = .ok V ∧
      bl = V.flatMap (fun vv => K.map (fun kk => (stringify kk, vv))) := by
  unfold entryFn at h
  cases hk : pa kv.1 with
  | error e =>
    rw [hk] at h
    cases hv : pa kv.2 with
    | error e2 => rw [hv] at h; exact Except.noConfusion h
    | ok V => rw [hv] at h; exact Except.noConfusion h
  | ok K =>
    rw [hk] at h
    cases hv : pa kv.2 with
    | error e => rw [hv] at h; exact Except.noConfusion h
    | ok V =>
      rw [hv] at h
      injection h with h2
      exact ⟨K, V, rfl, rfl, h2.symm⟩

theorem entryFnStrict_err_key (pa : AST → Except Err Value) (kv : AST × AST)
    (e : Err) (hk : pa kv.1 = .error e) : entryFnStrict pa kv = .error e := by
  unfold entryFnStrict
  rw [hk]
  cases hv : pa kv.2 with
  | error e2 => rfl
  | ok vv => rfl

theorem entryFnStrict_err_val (pa : AST → Except Err Value) (kv : AST × AST)
    (kk : Value) (e : Err) (hk : pa kv.1 = .ok kk) (hv : pa kv.2 = .error e) :
    entryFnStrict pa kv = .error e := by
  unfold entryFnStrict
  rw [hk, hv]

theorem entryFnStrict_ok_pair (pa : AST → Except Err Value) (kv : AST × AST)
    (kk vv : Value) (hk : pa kv.1 = .ok kk) (hv : pa kv.2 = .ok vv) :
    entryFnStrict pa kv = .ok (stringify kk, vv) := by
  unfold entryFnStrict
  rw [hk, hv]

theorem entryFnAxes_ok_pair (pa : AST → Except Err (List Nat)) (kv : AST × AST)
    (xs ys : List Nat) (hk : pa kv.1 = .ok xs) (hv : pa kv.2 = .ok ys) :
    entryFnAxes pa kv = .ok (xs ++ ys) := by
  unfold entryFnAxes
  rw [hk, hv]

theorem exList_agree (l : List α) (f : α → Except Err (List β))
    (g : α → Except Err β) (gax : α → Except Err (List Nat))
    (hpt : ∀ x ∈ l, ∀ vs, f x = .ok vs →
      g x = .error .branchingViolation ∨
        (gax x = .ok [] ∧ ∃ v, g x = .ok v ∧ vs = [v])) :
    ∀ ls, exList f l = .ok ls →
      exList g l = .error .branchingViolation ∨
        (exList gax l = .ok (l.map (fun _ => ([] : List Nat))) ∧
          ∃ ws, exList g l = .ok ws ∧ ls = ws.map (fun w => [w])) := by
  induction l with
  | nil =>
    intro ls h
    right
    rw [exList_nil] at h
    injection h with h2
    subst h2
    exact ⟨rfl, [], rfl, rfl⟩
  | cons x xs ih =>
    intro ls h
    obtain ⟨bl, tl, hf, ht, rfl⟩ := exList_cons_ok f x xs ls h
    rcases hpt x (by simp) bl hf with hbv | ⟨hax, v, hg, rfl⟩
    · left
      exact exList_cons_err_head g x xs _ hbv
    · rcases ih (fun y hy => hpt y (List.mem_cons_of_mem _ hy)) tl ht with
        hbv | ⟨haxs, ws, hgs, rfl⟩
      · left
        exact exList_cons_err_tail g x xs v _ hg hbv
      · right
        refine ⟨?_, v :: ws, exList_cons_eq_ok g x xs v ws hg hgs, by rw [List.map_cons]⟩
        rw [List.map_cons]
        exact exList_cons_eq_ok gax x xs [] _ hax haxs

theorem exList_count (l : List α) (f : α → Except Err (List β))
    (g : α → Except Err (List Nat))
    (hpt : ∀ x ∈ l, ∀ vs, f x = .ok vs →
      ∃ axs, g x = .ok axs ∧ vs.length = axs.prod) :
    ∀ ls, exList f l = .ok ls →
      ∃ axss, exList g l = .ok axss ∧ ls.map List.length = axss.map List.prod := by
  induction l with
  | nil =>
    intro ls h
    rw [exList_nil] at h
    injection h with h2
    subst h2
    exact ⟨[], rfl, rfl⟩
  | cons x xs ih =>
    intro ls h
    obtain ⟨bl, tl, hf, ht, rfl⟩ := exList_cons_ok f x xs ls h
    obtain ⟨axs, hax, hlen⟩ := hpt x (by simp) bl hf
    obtain ⟨axss, haxs, hlens⟩ := ih (fun y hy => hpt y (List.mem_cons_of_mem _ hy)) tl ht
    refine ⟨axs :: axss, exList_cons_eq_ok g x xs axs axss hax haxs, ?_⟩
    rw [List.map_cons, List.map_cons, hlen, hlens]

/-! ### Membership accessors for the syntactic predicates -/

theorem sweepFreeList_mem (l : List AST) (h : sweepFreeList l = true) :
    ∀ x ∈ l, sweepFree x = true := by
  induction l with
  | nil => intro x hx; simp at hx
  | cons y ys ih =>
    rw [sweepFreeList, Bool.and_eq_true] at h
    intro x hx
    rcases List.mem_cons.mp hx with h1 | h2
    · rw [h1]; exact h.1
    · exact ih h.2 x h2

theorem sweepFreeEntries_mem (l : List (AST × AST)) (h : sweepFreeEntries l = true) :
    ∀ kv ∈ l, sweepFree kv.1 = true ∧ sweepFree kv.2 = true := by
  induction l with
  | nil => intro kv hkv; simp at hkv
  | cons e es ih =>
    rw [sweepFreeEntries, Bool.and_eq_true, Bool.and_eq_true] at h
    intro kv hkv
    rcases List.mem_cons.mp hkv with h1 | h2
    · rw [h1]; exact ⟨h.1.1, h.1.2⟩
    · exact ih h.2 kv h2

theorem nonNestedList_mem (l : List AST) (h : nonNestedList l = true) :
    ∀ x ∈ l, nonNested x = true := by
  induction l with
  | nil => intro x hx; simp at hx
  | cons y ys ih =>
    rw [nonNestedList, Bool.and_eq_true] at h
    intro x hx
    rcases List.mem_cons.mp hx with h1 | h2
    · rw [h1]; exact h.1
    · exact ih h.2 x h2

theorem nonNestedEntries_mem (l : List (AST × AST)) (h : nonNestedEntries l = true) :
    ∀ kv ∈ l, nonNested kv.1 = true ∧ nonNested kv.2 = true := by
  induction l with
  | nil => intro kv hkv; simp at hkv
  | cons e es ih =>
    rw [nonNestedEntries, Bool.and_eq_true, Bool.and_eq_true] at h
    intro kv hkv
    rcases List.mem_cons.mp hkv with h1 | h2
    · rw [h1]; exact ⟨h.1.1, h.1.2⟩
    · exact ih h.2 kv h2

/-- Claim C4: whenever branching evaluation succeeds, the strict
non-branching `process` either fails with `branchingViolation` — it does
so exactly when a sweep was reachable (even a one-armed one), i.e.
whenever the reached-sweep arity list is not empty — or, when no sweep
was reachable, returns the unique branching result; in particular it
never silently evaluates a sweep to just its first value. -/
theorem claim4_strict_sweep_violation (fuel : Nat) :
    ∀ (a : AST) (ctx : Ctx) (sc : Scopes) (vs : List Value),
      processAll fuel a ctx sc = .ok vs →
      process fuel a ctx sc = .error .branchingViolation ∨
        (sweepAxes fuel a ctx sc = .ok [] ∧
          ∃ v, process fuel a ctx sc = .ok v ∧ vs = [v]) := by
  induction fuel with
  | zero =>
    intro a ctx sc vs h
    exact Except.noConfusion h
  | succ fuel ih =>
    intro a ctx sc vs h
    cases a with
    | lit v =>
      rw [processAll_lit] at h
      injection h with h2
      exact Or.inr ⟨rfl, v, rfl, h2.symm⟩
    | var p d e =>
      rw [processAll_var] at h
      cases hv : varLookup ctx p d e with
      | error err => rw [hv] at h; exact Except.noConfusion h
      | ok v =>
        rw [hv] at h
        injection h with h2
        right
        refine ⟨?_, v, ?_, h2.symm⟩
        · rw [sweepAxes_var, hv]
        · rw [process_var]
          exact hv
    | dict entries =>
      rw [processAll_dict] at h
      cases hex : exList (entryFn (fun x => processAll fuel x ctx sc)) entries with
      | error e => rw [hex] at h; exact Except.noConfusion h
      | ok bls =>
        rw [hex] at h
        injection h with h2
        have hpt : ∀ kv ∈ entries, ∀ bl,
            entryFn (fun x => processAll fuel x ctx sc) kv = .ok bl →
            entryFnStrict (fun x => process fuel x ctx sc) kv =
              .error .branchingViolation ∨
              (entryFnAxes (fun x => sweepAxes fuel x ctx sc) kv = .ok [] ∧
                ∃ pr, entryFnStrict (fun x => process fuel x ctx sc) kv = .ok pr ∧
                  bl = [pr]) := by
          intro kv _ bl hbl
          obtain ⟨K, V, hK, hV, rfl⟩ :=
            entryFn_ok_inv (fun x => processAll fuel x ctx sc) kv bl hbl
          rcases ih kv.1 ctx sc K hK with hbv | ⟨haxk, vk, hgk, rfl⟩
          · exact Or.inl (entryFnStrict_err_key _ kv _ hbv)
          · rcases ih kv.2 ctx sc V hV with hbv | ⟨haxv, vv, hgv, rfl⟩
            · exact Or.inl (entryFnStrict_err_val _ kv vk _ hgk hbv)
            · right
              refine ⟨?_, (stringify vk, vv),
                entryFnStrict_ok_pair _ kv vk vv hgk hgv, rfl⟩
              have := entryFnAxes_ok_pair (fun x => sweepAxes fuel x ctx sc)
                kv [] [] haxk haxv
              rw [List.append_nil] at this
              exact this
        rcases exList_agree entries _ _ _ hpt bls hex with hbv | ⟨haxs, prs, hstr, rfl⟩
        · left
          rw [process_dict, hbv]
        · right
          refine ⟨?_, .vdict prs, ?_, ?_⟩
          · rw [sweepAxes_dict, haxs]
            show Except.ok ((entries.map (fun _ => ([] : List Nat))).flatten) = _
            rw [flatten_nil_all]
          · rw [process_dict, hstr]
          · rw [← h2, combos_singletons]
            rfl
    | list items =>
      rw [processAll_list] at h
      cases hex : exList (fun x => processAll fuel x ctx sc) items with
      | error e => rw [hex] at h; exact Except.noConfusion h
      | ok ls =>
        rw [hex] at h
        injection h with h2
        have hpt : ∀ x ∈ items, ∀ bl, processAll fuel x ctx sc = .ok bl →
            process fuel x ctx sc = .error .branchingViolation ∨
              (sweepAxes fuel x ctx sc = .ok [] ∧
                ∃ v, process fuel x ctx sc = .ok v ∧ bl = [v]) :=
          fun x _ bl hbl => ih x ctx sc bl hbl
        rcases exList_agree items _ _ _ hpt ls hex with hbv | ⟨haxs, ws, hstr, rfl⟩
        · left
          rw [process_list, hbv]
        · right
          refine ⟨?_, .vlist ws, ?_, ?_⟩
          · rw [sweepAxes_list, haxs]
            show Except.ok ((items.map (fun _ => ([] : List Nat))).flatten) = _
            rw [flatten_nil_all]
          · rw [process_list, hstr]
          · rw [← h2, combos_singletons]
            rfl
    | strBundle parts =>
      rw [processAll_strBundle] at h
      cases hex : exList (fun x => processAll fuel x ctx sc) parts with
      | error e => rw [hex] at h; exact Except.noConfusion h
      | ok ls =>
        rw [hex] at h
        injection h with h2
        have hpt : ∀ x ∈ parts, ∀ bl, processAll fuel x ctx sc = .ok bl →
            process fuel x ctx sc = .error .branchingViolation ∨
              (sweepAxes fuel x ctx sc = .ok [] ∧
                ∃ v, process fuel x ctx sc = .ok v ∧ bl = [v]) :=
          fun x _ bl hbl => ih x ctx sc bl hbl
        rcases exList_agree parts _ _ _ hpt ls hex with hbv | ⟨haxs, ws, hstr, rfl⟩
        · left
          rw [process_strBundle, hbv]
        · right
          refine ⟨?_, .vstr (concatVals ws), ?_, ?_⟩
          · rw [sweepAxes_strBundle, haxs]
            show Except.ok ((parts.map (fun _ => ([] : List Nat))).flatten) = _
            rw [flatten_nil_all]
          · rw [process_strBundle, hstr]
          · rw [← h2, combos_singletons]
            rfl
    | sweep cs =>
      left
      rw [process_sweep]
    | forLoop id iter body =>
      rw [processAll_forLoop] at h
      cases hst : loopSteps ctx iter with
      | error e => rw [hst] at h; exact Except.noConfusion h
      | ok steps =>
        rw [hst] at h
        have h3 : (match exList (fun st => processAll fuel body ctx ((id, st) :: sc))
              steps with
            | .error e => Except.error e
            | .ok ls => exList (fun rs => aggregate (bodyKind body) rs) (combos ls)) =
            Except.ok vs := h
        cases hex : exList (fun st => processAll fuel body ctx ((id, st) :: sc)) steps with
        | error e => rw [hex] at h3; exact Except.noConfusion h3
        | ok ls =>
          rw [hex] at h3
          have hpt : ∀ st ∈ steps, ∀ bl,
              processAll fuel body ctx ((id, st) :: sc) = .ok bl →
              process fuel body ctx ((id, st) :: sc) = .error .branchingViolation ∨
                (sweepAxes fuel body ctx ((id, st) :: sc) = .ok [] ∧
                  ∃ v, process fuel body ctx ((id, st) :: sc) = .ok v ∧ bl = [v]) :=
            fun st _ bl hbl => ih body ctx ((id, st) :: sc) bl hbl
          rcases exList_agree steps _ _ _ hpt ls hex with hbv | ⟨haxs, ws, hstr, rfl⟩
          · left
            rw [process_forLoop, hst]
            show (match exList (fun st => process fuel body ctx ((id, st) :: sc))
                steps with
              | .error e => Except.error e
              | .ok rs => aggregate (bodyKind body) rs) = _
            rw [hbv]
          · have h4 : exList (fun rs => aggregate (bodyKind body) rs)
                (combos (ws.map (fun w => [w]))) = Except.ok vs := h3
            rw [combos_singletons] at h4
            obtain ⟨w, tl0, hagg, htl0, hvs⟩ :=
              exList_cons_ok (fun rs => aggregate (bodyKind body) rs) ws [] vs h4
            rw [exList_nil] at htl0
            injection htl0 with htl0e
            subst htl0e
            right
            refine ⟨?_, w, ?_, hvs⟩
            · rw [sweepAxes_forLoop, hst]
              show (match exList (fun st => sweepAxes fuel body ctx ((id, st) :: sc))
                  steps with
                | .ok ls => Except.ok ls.flatten
                | .error e => Except.error e) = _
              rw [haxs]
              show Except.ok ((steps.map (fun _ => ([] : List Nat))).flatten) = _
              rw [flatten_nil_all]
            · rw [process_forLoop, hst]
              show (match exList (fun st => process fuel body ctx ((id, st) :: sc))
                  steps with
                | .error e => Except.error e
                | .ok rs => aggregate (bodyKind body) rs) = _
              rw [hstr]
              exact hagg
    | call sym args =>
      rw [processAll_call] at h
      cases hargs : processAll fuel args ctx sc with
      | error e => rw [hargs] at h; exact Except.noConfusion h
      | ok ls =>
        rw [hargs] at h
        injection h with h2
        rcases ih args ctx sc ls hargs with hbv | ⟨hax, v, hg, rfl⟩
        · left
          rw [process_call, hbv]
        · right
          refine ⟨?_, .vnative sym, ?_, ?_⟩
          · rw [sweepAxes_call]
            exact hax
          · rw [process_call, hg]
          · rw [← h2]
            rfl
    | importNode p =>
      rw [processAll_importNode] at h
      exact Except.noConfusion h
    | index id =>
      rw [processAll_index] at h
      cases hv : scopeIndex sc id with
      | error e => rw [hv] at h; exact Except.noConfusion h
      | ok v =>
        rw [hv] at h
        injection h with h2
        right
        refine ⟨?_, v, ?_, h2.symm⟩
        · rw [sweepAxes_index, hv]
        · rw [process_index]
          exact hv
    | item id sub =>
      rw [processAll_item] at h
      cases hv : scopeItem sc id sub with
      | error e => rw [hv] at h; exact Except.noConfusion h
      | ok v =>
        rw [hv] at h
        injection h with h2
        right
        refine ⟨?_, v, ?_, h2.symm⟩
        · rw [sweepAxes_item, hv]
        · rw [process_item]
          exact hv

theorem claim4_strict_sweep_violation_witness :
    process 2 (.sweep [.lit (.vint 1), .lit (.vint 2)]) emptyCtx [] =
        .error .branchingViolation ∨
      (sweepAxes 2 (.sweep [.lit (.vint 1), .lit (.vint 2)]) emptyCtx [] = .ok [] ∧
        ∃ v, process 2 (.sweep [.lit (.vint 1), .lit (.vint 2)]) emptyCtx [] = .ok v ∧
          [Value.vint 1, Value.vint 2] = [v]) :=
  claim4_strict_sweep_violation 2 (.sweep [.lit (.vint 1), .lit (.vint 2)])
    emptyCtx [] [.vint 1, .vint 2] (by rfl)

/-! ### Counting lemmas for the sweep cartesian product -/

theorem sweepFree_nonNested_aux : ∀ n : Nat,
    (∀ a : AST, sizeOf a ≤ n → sweepFree a = true → nonNested a = true) ∧
    (∀ l : List AST, sizeOf l ≤ n → sweepFreeList l = true → nonNestedList l = true) ∧
    (∀ es : List (AST × AST), sizeOf es ≤ n →
      sweepFreeEntries es = true → nonNestedEntries es = true) := by
  intro n
  induction n with
  | zero =>
    refine ⟨?_, ?_, ?_⟩
    · intro a ha
      cases a <;> simp at ha
    · intro l hl
      cases l with
      | nil => intro _; rfl
      | cons x xs => simp at hl
    · intro es he
      cases es with
      | nil => intro _; rfl
      | cons kv rest => simp at he
  | succ n ih =>
    obtain ⟨ihA, ihL, ihE⟩ := ih
    refine ⟨?_, ?_, ?_⟩
    · intro a ha hsf
      cases a with
      | lit v => rfl
      | dict es =>
        rw [sweepFree] at hsf
        rw [nonNested]
        refine ihE es ?_ hsf
        simp at ha
        omega
      | list xs =>
        rw [sweepFree] at hsf
        rw [nonNested]
        refine ihL xs ?_ hsf
        simp at ha
        omega
      | strBundle xs =>
        rw [sweepFree] at hsf
        rw [nonNested]
        refine ihL xs ?_ hsf
        simp at ha
        omega
      | var p d e => rfl
      | sweep cs =>
        rw [sweepFree] at hsf
        exact Bool.noConfusion hsf
      | forLoop id iter b =>
        rw [sweepFree] at hsf
        rw [nonNested]
        refine ihA b ?_ hsf
        simp at ha
        omega
      | call sym args =>
        rw [sweepFree] at hsf
        rw [nonNested]
        refine ihA args ?_ hsf
        simp at ha
        omega
      | importNode p => rfl
      | index id => rfl
      | item id sub => rfl
    · intro l hl hsf
      cases l with
      | nil => rfl
      | cons x xs =>
        rw [sweepFreeList, Bool.and_eq_true] at hsf
        rw [nonNestedList, Bool.and_eq_true]
        have h1 : sizeOf x ≤ n := by
          simp at hl
          omega
        have h2 : sizeOf xs ≤ n := by
          simp at hl
          omega
        exact ⟨ihA x h1 hsf.1, ihL xs h2 hsf.2⟩
    · intro es he hsf
      cases es with
      | nil => rfl
      | cons kv rest =>
        rw [sweepFreeEntries, Bool.and_eq_true, Bool.and_eq_true] at hsf
        rw [nonNestedEntries, Bool.and_eq_true, Bool.and_eq_true]
        have h1 : sizeOf kv.1 ≤ n := by
          cases kv
          simp at he ⊢
          omega
        have h2 : sizeOf kv.2 ≤ n := by
          cases kv
          simp at he ⊢
          omega
        have h3 : sizeOf rest ≤ n := by
          simp at he
          omega
        exact ⟨⟨ihA kv.1 h1 hsf.1.1, ihA kv.2 h2 hsf.1.2⟩, ihE rest h3 hsf.2⟩

theorem sweepFree_nonNested (a : AST) (h : sweepFree a = true) :
    nonNested a = true :=
  (sweepFree_nonNested_aux (sizeOf a)).1 a (Nat.le_refl _) h

theorem exList_all_len_one (l : List α) (f : α → Except Err (List β))
    (hpt : ∀ x ∈ l, ∀ vs, f x = .ok vs → vs.length = 1) :
    ∀ ls, exList f l = .ok ls → ∀ bl ∈ ls, bl.length = 1 := by
  induction l with
  | nil =>
    intro ls h
    rw [exList_nil] at h
    injection h with h2
    subst h2
    intro bl hbl
    simp at hbl
  | cons x xs ih =>
    intro ls h
    obtain ⟨y, tl, hf, ht, rfl⟩ := exList_cons_ok f x xs ls h
    intro bl hbl
    rcases List.mem_cons.mp hbl with h1 | h2
    · rw [h1]
      exact hpt x (by simp) y hf
    · exact ih (fun z hz => hpt z (List.mem_cons_of_mem _ hz)) tl ht bl h2

theorem combos_len_one (ls : List (List α)) (h : ∀ l ∈ ls, l.length = 1) :
    (combos ls).length = 1 := by
  rw [combos_length]
  apply List.prod_eq_one
  intro x hx
  obtain ⟨l, hl, rfl⟩ := List.mem_map.mp hx
  exact h l hl

/-- A sweep-free AST yields exactly one branching result. -/
theorem sweepFree_singleton (fuel : Nat) :
    ∀ (a : AST) (ctx : Ctx) (sc : Scopes) (vs : List Value),
      sweepFree a = true → processAll fuel a ctx sc = .ok vs → vs.length = 1 := by
  induction fuel with
  | zero =>
    intro a ctx sc vs _ h
    exact Except.noConfusion h
  | succ fuel ih =>
    intro a ctx sc vs hsf h
    cases a with
    | lit v =>
      rw [processAll_lit] at h
      injection h with h2
      rw [← h2]
      rfl
    | var p d e =>
      rw [processAll_var] at h
      cases hv : varLookup ctx p d e with
      | error err => rw [hv] at h; exact Except.noConfusion h
      | ok v =>
        rw [hv] at h
        injection h with h2
        rw [← h2]
        rfl
    | dict entries =>
      rw [sweepFree] at hsf
      rw [processAll_dict] at h
      cases hex : exList (entryFn (fun x => processAll fuel x ctx sc)) entries with
      | error e => rw [hex] at h; exact Except.noConfusion h
      | ok bls =>
        rw [hex] at h
        injection h with h2
        have hpt : ∀ kv ∈ entries, ∀ bl,
            entryFn (fun x => processAll fuel x ctx sc) kv = .ok bl →
            bl.length = 1 := by
          intro kv hkv bl hbl
          obtain ⟨K, V, hK, hV, rfl⟩ :=
            entryFn_ok_inv (fun x => processAll fuel x ctx sc) kv bl hbl
          have hk := (sweepFreeEntries_mem entries hsf kv hkv).1
          have hv := (sweepFreeEntries_mem entries hsf kv hkv).2
          rw [flatMap_map_length, ih kv.1 ctx sc K hk hK, ih kv.2 ctx sc V hv hV]
        rw [← h2, List.length_map]
        exact combos_len_one bls (exList_all_len_one entries _ hpt bls hex)
    | list items =>
      rw [sweepFree] at hsf
      rw [processAll_list] at h
      cases hex : exList (fun x => processAll fuel x ctx sc) items with
      | error e => rw [hex] at h; exact Except.noConfusion h
      | ok ls =>
        rw [hex] at h
        injection h with h2
        have hpt : ∀ x ∈ items, ∀ bl, processAll fuel x ctx sc = .ok bl →
            bl.length = 1 :=
          fun x hx bl hbl => ih x ctx sc bl (sweepFreeList_mem items hsf x hx) hbl
        rw [← h2, List.length_map]
        exact combos_len_one ls (exList_all_len_one items _ hpt ls hex)
    | strBundle parts =>
      rw [sweepFree] at hsf
      rw [processAll_strBundle] at h
      cases hex : exList (fun x => processAll fuel x ctx sc) parts with
      | error e => rw [hex] at h; exact Except.noConfusion h
      | ok ls =>
        rw [hex] at h
        injection h with h2
        have hpt : ∀ x ∈ parts, ∀ bl, processAll fuel x ctx sc = .ok bl →
            bl.length = 1 :=
          fun x hx bl hbl => ih x ctx sc bl (sweepFreeList_mem parts hsf x hx) hbl
        rw [← h2, List.length_map]
        exact combos_len_one ls (exList_all_len_one parts _ hpt ls hex)
    | sweep cs =>
      rw [sweepFree] at hsf
      exact Bool.noConfusion hsf
    | forLoop id iter body =>
      rw [sweepFree] at hsf
      rw [processAll_forLoop] at h
      cases hst : loopSteps ctx iter with
      | error e => rw [hst] at h; exact Except.noConfusion h
      | ok steps =>
        rw [hst] at h
        have h3 : (match exList (fun st => processAll fuel body ctx ((id, st) :: sc))
              steps with
            | .error e => Except.error e
            | .ok ls => exList (fun rs => aggregate (bodyKind body) rs) (combos ls)) =
            Except.ok vs := h
        cases hex : exList (fun st => processAll fuel body ctx ((id, st) :: sc)) steps with
        | error e => rw [hex] at h3; exact Except.noConfusion h3
        | ok ls =>
          rw [hex] at h3
          have hpt : ∀ st ∈ steps, ∀ bl,
              processAll fuel body ctx ((id, st) :: sc) = .ok bl → bl.length = 1 :=
            fun st _ bl hbl => ih body ctx ((id, st) :: sc) bl hsf hbl
          have hlen := exList_ok_length _ (combos ls) vs h3
          rw [hlen, combos_len_one ls (exList_all_len_one steps _ hpt ls hex)]
    | call sym args =>
      rw [sweepFree] at hsf
      rw [processAll_call] at h
      cases hargs : processAll fuel args ctx sc with
      | error e => rw [hargs] at h; exact Except.noConfusion h
      | ok ls =>
        rw [hargs] at h
        injection h with h2
        rw [← h2, List.length_map]
        exact ih args ctx sc ls hsf hargs
    | importNode p =>
      rw [processAll_importNode] at h
      exact Except.noConfusion h
    | index id =>
      rw [processAll_index] at h
      cases hv : scopeIndex sc id with
      | error e => rw [hv] at h; exact Except.noConfusion h
      | ok v =>
        rw [hv] at h
        injection h with h2
        rw [← h2]
        rfl
    | item id sub =>
      rw [processAll_item] at h
      cases hv : scopeItem sc id sub with
      | error e => rw [hv] at h; exact Except.noConfusion h
      | ok v =>
        rw [hv] at h
        injection h with h2
        rw [← h2]
        rfl

/-- Claim C1: when no sweep occurs inside another sweep's branch value,
the branching evaluation returns exactly the cartesian-product number of
outputs — the product of the arities of the sweeps reached during
evaluation (`sweepAxes`); in particular, when no sweep is reachable the
arity list is empty and exactly one output is returned. -/
theorem claim1_sweep_cartesian_count (fuel : Nat) :
    ∀ (a : AST) (ctx : Ctx) (sc : Scopes) (vs : List Value),
      nonNested a = true → processAll fuel a ctx sc = .ok vs →
      ∃ axs, sweepAxes fuel a ctx sc = .ok axs ∧ vs.length = axs.prod := by
  induction fuel with
  | zero =>
    intro a ctx sc vs _ h
    exact Except.noConfusion h
  | succ fuel ih =>
    intro a ctx sc vs hnn h
    cases a with
    | lit v =>
      rw [processAll_lit] at h
      injection h with h2
      exact ⟨[], rfl, by rw [← h2]; rfl⟩
    | var p d e =>
      rw [processAll_var] at h
      cases hv : varLookup ctx p d e with
      | error err => rw [hv] at h; exact Except.noConfusion h
      | ok v =>
        rw [hv] at h
        injection h with h2
        refine ⟨[], ?_, by rw [← h2]; rfl⟩
        rw [sweepAxes_var, hv]
    | dict entries =>
      rw [nonNested] at hnn
      rw [processAll_dict] at h
      cases hex : exList (entryFn (fun x => processAll fuel x ctx sc)) entries with
      | error e => rw [hex] at h; exact Except.noConfusion h
      | ok bls =>
        rw [hex] at h
        injection h with h2
        have hpt : ∀ kv ∈ entries, ∀ bl,
            entryFn (fun x => processAll fuel x ctx sc) kv = .ok bl →
            ∃ axs, entryFnAxes (fun x => sweepAxes fuel x ctx sc) kv = .ok axs ∧
              bl.length = axs.prod := by
          intro kv hkv bl hbl
          obtain ⟨K, V, hK, hV, rfl⟩ :=
            entryFn_ok_inv (fun x => processAll fuel x ctx sc) kv bl hbl
          obtain ⟨xs, hxs, hlenK⟩ :=
            ih kv.1 ctx sc K (nonNestedEntries_mem entries hnn kv hkv).1 hK
          obtain ⟨ys, hys, hlenV⟩ :=
            ih kv.2 ctx sc V (nonNestedEntries_mem entries hnn kv hkv).2 hV
          refine ⟨xs ++ ys, entryFnAxes_ok_pair _ kv xs ys hxs hys, ?_⟩
          rw [flatMap_map_length, List.prod_append, hlenK, hlenV]
        obtain ⟨axss, haxss, hlens⟩ := exList_count entries _ _ hpt bls hex
        refine ⟨axss.flatten, ?_, ?_⟩
        · rw [sweepAxes_dict, haxss]
        · rw [← h2, List.length_map, combos_length, hlens, List.prod_flatten]
    | list items =>
      rw [nonNested] at hnn
      rw [processAll_list] at h
      cases hex : exList (fun x => processAll fuel x ctx sc) items with
      | error e => rw [hex] at h; exact Except.noConfusion h
      | ok ls =>
        rw [hex] at h
        injection h with h2
        have hpt : ∀ x ∈ items, ∀ bl, processAll fuel x ctx sc = .ok bl →
            ∃ axs, sweepAxes fuel x ctx sc = .ok axs ∧ bl.length = axs.prod :=
          fun x hx bl hbl => ih x ctx sc bl (nonNestedList_mem items hnn x hx) hbl
        obtain ⟨axss, haxss, hlens⟩ := exList_count items _ _ hpt ls hex
        refine ⟨axss.flatten, ?_, ?_⟩
        · rw [sweepAxes_list, haxss]
        · rw [← h2, List.length_map, combos_length, hlens, List.prod_flatten]
    | strBundle parts =>
      rw [nonNested] at hnn
      rw [processAll_strBundle] at h
      cases hex : exList (fun x => processAll fuel x ctx sc) parts with
      | error e => rw [hex] at h; exact Except.noConfusion h
      | ok ls =>
        rw [hex] at h
        injection h with h2
        have hpt : ∀ x ∈ parts, ∀ bl, processAll fuel x ctx sc = .ok bl →
            ∃ axs, sweepAxes fuel x ctx sc = .ok axs ∧ bl.length = axs.prod :=
          fun x hx bl hbl => ih x ctx sc bl (nonNestedList_mem parts hnn x hx) hbl
        obtain ⟨axss, haxss, hlens⟩ := exList_count parts _ _ hpt ls hex
        refine ⟨axss.flatten, ?_, ?_⟩
        · rw [sweepAxes_strBundle, haxss]
        · rw [← h2, List.length_map, combos_length, hlens, List.prod_flatten]
    | sweep cs =>
      rw [nonNested] at hnn
      rw [processAll_sweep] at h
      cases hex : exList (fun x => processAll fuel x ctx sc) cs with
      | error e => rw [hex] at h; exact Except.noConfusion h
      | ok ls =>
        rw [hex] at h
        injection h with h2
        have hpt : ∀ x ∈ cs, ∀ bl, processAll fuel x ctx sc = .ok bl →
            ∃ axs, sweepAxes fuel x ctx sc = .ok axs ∧ bl.length = axs.prod :=
          fun x hx bl hbl => ih x ctx sc bl
            (sweepFree_nonNested x (sweepFreeList_mem cs hnn x hx)) hbl
        obtain ⟨axss, haxss, _⟩ := exList_count cs _ _ hpt ls hex
        refine ⟨[cs.length], ?_, ?_⟩
        · rw [sweepAxes_sweep, haxss]
        · have hones : ∀ l ∈ ls, l.length = 1 :=
            exList_all_len_one cs _ (fun x hx bl hbl =>
              sweepFree_singleton fuel x ctx sc bl
                (sweepFreeList_mem cs hnn x hx) hbl) ls hex
          rw [← h2, flatten_length_ones ls hones, exList_ok_length _ cs ls hex]
          simp
    | forLoop id iter body =>
      rw [nonNested] at hnn
      rw [processAll_forLoop] at h
      cases hst : loopSteps ctx iter with
      | error e => rw [hst] at h; exact Except.noConfusion h
      | ok steps =>
        rw [hst] at h
        have h3 : (match exList (fun st => processAll fuel body ctx ((id, st) :: sc))
              steps with
            | .error e => Except.error e
            | .ok ls => exList (fun rs => aggregate (bodyKind body) rs) (combos ls)) =
            Except.ok vs := h
        cases hex : exList (fun st => processAll fuel body ctx ((id, st) :: sc)) steps with
        | error e => rw [hex] at h3; exact Except.noConfusion h3
        | ok ls =>
          rw [hex] at h3
          have hpt : ∀ st ∈ steps, ∀ bl,
              processAll fuel body ctx ((id, st) :: sc) = .ok bl →
              ∃ axs, sweepAxes fuel body ctx ((id, st) :: sc) = .ok axs ∧
                bl.length = axs.prod :=
            fun st _ bl hbl => ih body ctx ((id, st) :: sc) bl hnn hbl
          obtain ⟨axss, haxss, hlens⟩ := exList_count steps _ _ hpt ls hex
          refine ⟨axss.flatten, ?_, ?_⟩
          · rw [sweepAxes_forLoop, hst]
            show (match exList (fun st => sweepAxes fuel body ctx ((id, st) :: sc))
                steps with
              | .ok ls => Except.ok ls.flatten
              | .error e => Except.error e) = _
            rw [haxss]
          · rw [exList_ok_length _ (combos ls) vs h3, combos_length, hlens,
              List.prod_flatten]
    | call sym args =>
      rw [nonNested] at hnn
      rw [processAll_call] at h
      cases hargs : processAll fuel args ctx sc with
      | error e => rw [hargs] at h; exact Except.noConfusion h
      | ok ls =>
        rw [hargs] at h
        injection h with h2
        obtain ⟨axs, hax, hlen⟩ := ih args ctx sc ls hnn hargs
        refine ⟨axs, ?_, ?_⟩
        · rw [sweepAxes_call]
          exact hax
        · rw [← h2, List.length_map]
          exact hlen
    | importNode p =>
      rw [processAll_importNode] at h
      exact Except.noConfusion h
    | index id =>
      rw [processAll_index] at h
      cases hv : scopeIndex sc id with
      | error e => rw [hv] at h; exact Except.noConfusion h
      | ok v =>
        rw [hv] at h
        injection h with h2
        refine ⟨[], ?_, by rw [← h2]; rfl⟩
        rw [sweepAxes_index, hv]
    | item id sub =>
      rw [processAll_item] at h
      cases hv : scopeItem sc id sub with
      | error e => rw [hv] at h; exact Except.noConfusion h
      | ok v =>
        rw [hv] at h
        injection h with h2
        refine ⟨[], ?_, by rw [← h2]; rfl⟩
        rw [sweepAxes_item, hv]

theorem claim1_sweep_cartesian_count_witness :
    ∃ axs, sweepAxes 5 twoSweepDict emptyCtx [] = .ok axs ∧
      docsOrderOut.length = axs.prod :=
  claim1_sweep_cartesian_count 5 twoSweepDict emptyCtx [] docsOrderOut
    (by rfl) (by rfl)

end Choixe
